import Mathlib

/-!
Verification of the mesh builder / model loader in
`src/examples/viewer5/model.cpp`.

The embedding models GLM float vectors with exact rationals (ℚ): all code
paths under verification use only ring operations and comparisons, except
`glm::normalize` and `glm::length`, whose square root is not exactly
representable; those are abstracted as explicit function parameters
(`nrm : Vec3 → Vec3` for `glm::normalize`, `sq : ℚ → ℚ` for the square
root inside `glm::length`), constrained by hypotheses where a theorem
needs their defining property.

Filesystem and GPU state are external collaborators: file existence is a
boolean predicate on texture names, `abcg::opengl::loadTexture` is a
function from names to handles, and GPU buffer uploads are out of scope.
-/

set_option autoImplicit false

/-- Component type of GLM vectors, modelled exactly. -/
abbrev Q := ℚ

/-- `glm::vec2` (texture coordinate, fields `s`/`t` as used by the code). -/
structure Vec2 where
  s : Q
  t : Q
deriving DecidableEq

/-- `glm::vec3`. -/
structure Vec3 where
  x : Q
  y : Q
  z : Q
deriving DecidableEq

/-- `glm::vec4`. -/
structure Vec4 where
  x : Q
  y : Q
  z : Q
  w : Q
deriving DecidableEq

def zeroV : Vec3 := ⟨0, 0, 0⟩

def zeroV2 : Vec2 := ⟨0, 0⟩

def zeroV4 : Vec4 := ⟨0, 0, 0, 0⟩

def addV (a b : Vec3) : Vec3 := ⟨a.x + b.x, a.y + b.y, a.z + b.z⟩

def subV (a b : Vec3) : Vec3 := ⟨a.x - b.x, a.y - b.y, a.z - b.z⟩

def smulV (q : Q) (a : Vec3) : Vec3 := ⟨q * a.x, q * a.y, q * a.z⟩

def addV4 (a b : Vec4) : Vec4 := ⟨a.x + b.x, a.y + b.y, a.z + b.z, a.w + b.w⟩

/-- `glm::cross`. -/
def crossV (a b : Vec3) : Vec3 :=
  ⟨a.y * b.z - a.z * b.y, a.z * b.x - a.x * b.z, a.x * b.y - a.y * b.x⟩

/-- `glm::dot`. -/
def dotV (a b : Vec3) : Q := a.x * b.x + a.y * b.y + a.z * b.z

/-- `glm::vec3(v)` applied to a `glm::vec4`: drops the `w` component. -/
def xyz (a : Vec4) : Vec3 := ⟨a.x, a.y, a.z⟩

/-- The `Vertex` struct from `model.hpp` as used throughout `model.cpp`:
position, normal, texture coordinate, tangent (xyz + handedness w). -/
structure Vertex where
  position : Vec3
  normal : Vec3
  texCoord : Vec2
  tangent : Vec4
deriving DecidableEq

def vdummy : Vertex := ⟨zeroV, zeroV, zeroV2, zeroV4⟩

/-- Modelled from the spec: `Vertex::operator==` lives in `model.hpp`,
which is not under `src/`; per the spec (§3), vertex equality/hash for
deduplication is over position, normal and texCoord only (tangent
excluded, computed after dedup), with exact bitwise float comparison. -/
def vkey (v : Vertex) : Vec3 × Vec3 × Vec2 := (v.position, v.normal, v.texCoord)

abbrev VKey := Vec3 × Vec3 × Vec2

/-- One triangle-face corner as emitted by the parser: position always
present (`index.vertex_index`), normal and texcoord optional
(`index.normal_index >= 0`, `index.texcoord_index >= 0` in the code,
with the attribute-array lookups already resolved). -/
structure Corner where
  position : Vec3
  normal : Option Vec3
  texCoord : Option Vec2
deriving DecidableEq

def cdummy : Corner := ⟨zeroV, none, none⟩

/-- The candidate vertex assembled for one corner in `loadFromFile`
(lines 230–233): zero-filled normal/texcoord when absent, tangent
zero-initialized by `Vertex vertex{}`. -/
def assembleVertex (c : Corner) : Vertex :=
  { position := c.position
    normal := c.normal.getD zeroV
    texCoord := c.texCoord.getD zeroV2
    tangent := zeroV4 }

/-- Lookup in the `std::unordered_map<Vertex, GLuint>` used by the build,
modelled as an association list keyed by the dedup key. -/
def hfind : List (VKey × Nat) → VKey → Option Nat
  | [], _ => none
  | (k, i) :: rest, k' => if k = k' then some i else hfind rest k'

/-- The state mutated by the corner loop of `loadFromFile`
(lines 193–245): `m_vertices`, `m_indices`, the local `hash` map, and
the `m_hasNormals` / `m_hasTexCoords` flags. -/
structure BuildState where
  vertices : List Vertex
  indices : List Nat
  hmap : List (VKey × Nat)
  hasNormals : Bool
  hasTexCoords : Bool
deriving DecidableEq

def initBuildState : BuildState := ⟨[], [], [], false, false⟩

/-- One iteration of the corner loop (lines 198–244): set the flags,
assemble the candidate vertex, insert it with index `m_vertices.size()`
when absent from the map, and append the resolved index. -/
def buildStep (st : BuildState) (c : Corner) : BuildState :=
  let v := assembleVertex c
  let st :=
    { st with
        hasNormals := st.hasNormals || c.normal.isSome
        hasTexCoords := st.hasTexCoords || c.texCoord.isSome }
  match hfind st.hmap (vkey v) with
  | some i => { st with indices := st.indices ++ [i] }
  | none =>
      { st with
          hmap := (vkey v, st.vertices.length) :: st.hmap
          vertices := st.vertices ++ [v]
          indices := st.indices ++ [st.vertices.length] }

/-- The whole vertex/index build of `loadFromFile` over the flattened
corner sequence of all shapes, starting from cleared vertex/index
buffers and cleared flags (lines 186–245). -/
def buildVertexIndex (cs : List Corner) : BuildState :=
  cs.foldl buildStep initBuildState

/-- First-occurrence-order deduplication, written from the spec's words
(§4.1): walk the assembled vertices in order and append each vertex the
first time its dedup key appears. Used to compare the build's vertex
output against the spec. -/
def specUniq (as : List Vertex) : List Vertex :=
  as.foldl (fun acc a => if acc.any (fun b => vkey b = vkey a) then acc else acc ++ [a]) []

/-- The mutable state of a `Model` relevant to the verified code paths. -/
structure Model where
  vertices : List Vertex
  indices : List Nat
  hasNormals : Bool
  hasTexCoords : Bool
  Ka : Vec4
  Kd : Vec4
  Ks : Vec4
  shininess : Q
  diffuseTexture : Nat
  normalTexture : Nat
deriving DecidableEq

/-- The consecutive index triplets visited by
`iter::range<int>(0, m_indices.size(), 3)` plus the three `.at` reads
(a trailing incomplete group would make the C++ `.at` throw; the claims
only concern triangle lists, where none exists). -/
def triples : List Nat → List (Nat × Nat × Nat)
  | a :: b :: c :: rest => (a, b, c) :: triples rest
  | _ => []

def getVert (vs : List Vertex) (i : Nat) : Vertex := vs.getD i vdummy

/-- `vertex.normal += n` through the reference obtained by
`m_vertices.at(i)`: a read-modify-write at index `i`. -/
def addToNormal (vs : List Vertex) (i : Nat) (n : Vec3) : List Vertex :=
  match vs[i]? with
  | some v => vs.set i { v with normal := addV v.normal n }
  | none => vs

/-- One iteration of the face loop of `computeNormals` (lines 39–54):
face normal `cross(b.position - a.position, c.position - b.position)`
accumulated onto all three corner vertices (sequentially, so a
degenerate triangle repeating an index accumulates repeatedly). -/
def accumNormalStep (vs : List Vertex) (t : Nat × Nat × Nat) : List Vertex :=
  let a := getVert vs t.1
  let b := getVert vs t.2.1
  let c := getVert vs t.2.2
  let n := crossV (subV b.position a.position) (subV c.position b.position)
  let vs := addToNormal vs t.1 n
  let vs := addToNormal vs t.2.1 n
  addToNormal vs t.2.2 n

/-- `Model::computeNormals` (lines 32–62), with `glm::normalize`
abstracted as `nrm`: zero all normals, accumulate face normals over the
index triplets, normalize each vertex normal, set `m_hasNormals`. -/
def computeNormals (nrm : Vec3 → Vec3) (m : Model) : Model :=
  let vs0 := m.vertices.map (fun v => { v with normal := zeroV })
  let vs1 := (triples m.indices).foldl accumNormalStep vs0
  let vs2 := vs1.map (fun v => { v with normal := nrm v.normal })
  { m with vertices := vs2, hasNormals := true }

/-- `vertex.tangent += t` at index `i`. -/
def addToTangent (vs : List Vertex) (i : Nat) (t : Vec4) : List Vertex :=
  match vs[i]? with
  | some v => vs.set i { v with tangent := addV4 v.tangent t }
  | none => vs

/-- `bitangents.at(i) += b`. -/
def addToBit (bs : List Vec3) (i : Nat) (b : Vec3) : List Vec3 :=
  match bs[i]? with
  | some v => bs.set i (addV v b)
  | none => bs

/-- One iteration of the face loop of `computeTangents` (lines 69–110):
solve the 2×2 UV system (division by the determinant
`delta1.s*delta2.t - delta2.s*delta1.t`, unguarded) and accumulate the
face tangent (w = 0) and bitangent onto the three corner slots. -/
def tangentStep (st : List Vertex × List Vec3) (tr : Nat × Nat × Nat) :
    List Vertex × List Vec3 :=
  let vs := st.1
  let bs := st.2
  let v1 := getVert vs tr.1
  let v2 := getVert vs tr.2.1
  let v3 := getVert vs tr.2.2
  let e1 := subV v2.position v1.position
  let e2 := subV v3.position v1.position
  let d1s := v2.texCoord.s - v1.texCoord.s
  let d1t := v2.texCoord.t - v1.texCoord.t
  let d2s := v3.texCoord.s - v1.texCoord.s
  let d2t := v3.texCoord.t - v1.texCoord.t
  let r := 1 / (d1s * d2t - d2s * d1t)
  let m00 := d2t * r
  let m01 := -d1t * r
  let m10 := -d2s * r
  let m11 := d1s * r
  let tangent : Vec4 :=
    ⟨m00 * e1.x + m01 * e2.x, m00 * e1.y + m01 * e2.y, m00 * e1.z + m01 * e2.z, 0⟩
  let bitangent : Vec3 :=
    ⟨m10 * e1.x + m11 * e2.x, m10 * e1.y + m11 * e2.y, m10 * e1.z + m11 * e2.z⟩
  let vs := addToTangent vs tr.1 tangent
  let vs := addToTangent vs tr.2.1 tangent
  let vs := addToTangent vs tr.2.2 tangent
  let bs := addToBit bs tr.1 bitangent
  let bs := addToBit bs tr.2.1 bitangent
  (vs, addToBit bs tr.2.2 bitangent)

/-- The accumulation phase of `computeTangents` (lines 66–110): vertex
tangent accumulators plus the separate per-vertex bitangent array. -/
def tangentAccum (m : Model) : List Vertex × List Vec3 :=
  (triples m.indices).foldl tangentStep
    (m.vertices, List.replicate m.vertices.length zeroV)

/-- The per-vertex finalization of `computeTangents` (lines 112–124):
Gram-Schmidt against the normal, normalize (`nrm`), then set `w` from
the handedness test `dot(cross(n, t), bitangents.at(i)) < 0`. `t` is
the accumulated (pre-orthogonalization) tangent, copied before the
reassignment. -/
def finalizeTangent (nrm : Vec3 → Vec3) (bit : Vec3) (v : Vertex) : Vertex :=
  let n := v.normal
  let t := xyz v.tangent
  let tangent := subV t (smulV (dotV n t) n)
  let tn := nrm tangent
  let b := crossV n t
  let handedness := dotV b bit
  { v with tangent := ⟨tn.x, tn.y, tn.z, if handedness < 0 then -1 else 1⟩ }

/-- `Model::computeTangents` (lines 64–125), with `glm::normalize`
abstracted as `nrm`. -/
def computeTangents (nrm : Vec3 → Vec3) (m : Model) : Model :=
  let p := tangentAccum m
  { m with vertices := List.zipWith (fun v bit => finalizeTangent nrm bit v) p.1 p.2 }

/-- `std::numeric_limits<float>::max()`, exactly: (2 − 2⁻²³)·2¹²⁷. -/
def fltMax : Q := (2 ^ 24 - 1) * 2 ^ 104

def maxStep (acc : Vec3) (v : Vertex) : Vec3 :=
  ⟨max acc.x v.position.x, max acc.y v.position.y, max acc.z v.position.z⟩

def minStep (acc : Vec3) (v : Vertex) : Vec3 :=
  ⟨min acc.x v.position.x, min acc.y v.position.y, min acc.z v.position.z⟩

/-- The bounds fold of `Model::standardize` (lines 362–372): componentwise
max over all vertex positions, seeded with
`std::numeric_limits<float>::lowest()`. -/
def modelMax (vs : List Vertex) : Vec3 :=
  vs.foldl maxStep ⟨-fltMax, -fltMax, -fltMax⟩

/-- Componentwise min over all vertex positions, seeded with
`std::numeric_limits<float>::max()`. -/
def modelMin (vs : List Vertex) : Vec3 :=
  vs.foldl minStep ⟨fltMax, fltMax, fltMax⟩

/-- `Model::standardize` (lines 359–380), with the square root inside
`glm::length` abstracted as `sq`: translate by the box center, scale by
`2 / length(max - min)`. -/
def standardize (sq : Q → Q) (m : Model) : Model :=
  let maxv := modelMax m.vertices
  let minv := modelMin m.vertices
  let center := smulV (1 / 2) (addV minv maxv)
  let scaling := 2 / sq (dotV (subV maxv minv) (subV maxv minv))
  { m with
      vertices :=
        m.vertices.map (fun v => { v with position := smulV scaling (subV v.position center) }) }

/-- A parsed `tinyobj::material_t` restricted to the fields the code
reads; texture names are abstract tokens (`Nat`), `none` standing for
the empty string. -/
structure MtlRec where
  ambient : Vec3
  diffuse : Vec3
  specular : Vec3
  shininess : Q
  diffuse_texname : Option Nat
  normal_texname : Option Nat
  bump_texname : Option Nat
deriving DecidableEq

/-- `Model::loadDiffuseTexture` (lines 147–152): a no-op when the file
does not exist, otherwise delete the old texture and store the handle
returned by `abcg::opengl::loadTexture`. -/
def loadDiffuseTexture (fileOk : Bool) (newTex : Nat) (m : Model) : Model :=
  if fileOk then { m with diffuseTexture := newTex } else m

/-- `Model::loadNormalTexture` (lines 154–159). -/
def loadNormalTexture (fileOk : Bool) (newTex : Nat) (m : Model) : Model :=
  if fileOk then { m with normalTexture := newTex } else m

/-- The material-resolution block of `loadFromFile` (lines 247–269):
first material's colors with alpha fixed at 1 plus its texture loads,
or fixed defaults when the material list is empty. `fileOk`/`loadTex`
abstract the filesystem probe and the GL texture upload on the resolved
path. -/
def resolveMaterial (fileOk : Nat → Bool) (loadTex : Nat → Nat)
    (materials : List MtlRec) (m : Model) : Model :=
  match materials with
  | mat :: _ =>
      let m :=
        { m with
            Ka := ⟨mat.ambient.x, mat.ambient.y, mat.ambient.z, 1⟩
            Kd := ⟨mat.diffuse.x, mat.diffuse.y, mat.diffuse.z, 1⟩
            Ks := ⟨mat.specular.x, mat.specular.y, mat.specular.z, 1⟩
            shininess := mat.shininess }
      let m :=
        match mat.diffuse_texname with
        | some nm => loadDiffuseTexture (fileOk nm) (loadTex nm) m
        | none => m
      match mat.normal_texname with
      | some nm => loadNormalTexture (fileOk nm) (loadTex nm) m
      | none =>
          match mat.bump_texname with
          | some nm => loadNormalTexture (fileOk nm) (loadTex nm) m
          | none => m
  | [] =>
      { m with
          Ka := ⟨1/10, 1/10, 1/10, 1⟩
          Kd := ⟨7/10, 7/10, 7/10, 1⟩
          Ks := ⟨1, 1, 1, 1⟩
          shininess := 25 }

/-- `Model::loadFromFile` after the external parse succeeded
(lines 186–283, GPU buffer creation external): install the build
output, resolve the material, then conditionally standardize, compute
normals, compute tangents — each condition read from the model state at
that point, exactly as the code does. -/
def loadFromFile (nrm : Vec3 → Vec3) (sq : Q → Q) (fileOk : Nat → Bool)
    (loadTex : Nat → Nat) (cs : List Corner) (materials : List MtlRec)
    (std : Bool) (m0 : Model) : Model :=
  let b := buildVertexIndex cs
  let m :=
    { m0 with
        vertices := b.vertices
        indices := b.indices
        hasNormals := b.hasNormals
        hasTexCoords := b.hasTexCoords }
  let m := resolveMaterial fileOk loadTex materials m
  let m := if std then standardize sq m else m
  let m := if !m.hasNormals then computeNormals nrm m else m
  if m.hasTexCoords then computeTangents nrm m else m

/-- The load pipeline written from the spec's words (§4.5): fixed order
BuildVertexIndex → ResolveMaterial → Standardize (iff caller flag) →
ComputeNormals (iff `!hasNormals` from the build) → ComputeTangents
(iff `hasTexCoords` from the build, regardless of normals). -/
def stagedLoad (nrm : Vec3 → Vec3) (sq : Q → Q) (fileOk : Nat → Bool)
    (loadTex : Nat → Nat) (cs : List Corner) (materials : List MtlRec)
    (std : Bool) (m0 : Model) : Model :=
  let b := buildVertexIndex cs
  let m1 :=
    { m0 with
        vertices := b.vertices
        indices := b.indices
        hasNormals := b.hasNormals
        hasTexCoords := b.hasTexCoords }
  let m2 := resolveMaterial fileOk loadTex materials m1
  let m3 := if std then standardize sq m2 else m2
  let m4 := if b.hasNormals then m3 else computeNormals nrm m3
  if b.hasTexCoords then computeTangents nrm m4 else m4

/-! ### List helpers -/

theorem mem_iff_idx {α : Type} (a : α) (l : List α) : a ∈ l ↔ ∃ n : Nat, l[n]? = some a := by
  rw [List.mem_iff_getElem]
  constructor
  · rintro ⟨n, h, rfl⟩
    exact ⟨n, List.getElem?_eq_some.mpr ⟨h, rfl⟩⟩
  · rintro ⟨n, hn⟩
    obtain ⟨h, rfl⟩ := List.getElem?_eq_some.mp hn
    exact ⟨n, h, rfl⟩

theorem getD_append_lt {α : Type} (l l2 : List α) (d : α) (p : Nat) (h : p < l.length) :
    (l ++ l2).getD p d = l.getD p d := by
  simp [List.getD, List.getElem?_append_left h]

theorem getD_append_len {α : Type} (l : List α) (x d : α) :
    (l ++ [x]).getD l.length d = x := by
  simp [List.getD, List.getElem?_concat_length]

theorem getD_of_idx {α : Type} (l : List α) (n : Nat) (x d : α) (h : l[n]? = some x) :
    l.getD n d = x := by
  simp [List.getD, h]

theorem idx_of_getD {α : Type} (l : List α) (n : Nat) (d : α) (h : n < l.length) :
    l[n]? = some (l.getD n d) := by
  have := List.getElem?_eq_some.mpr ⟨h, rfl⟩
  rw [this, getD_of_idx l n _ d this]

/-! ### Build invariants -/

/-- The hash map is exactly the index-of function of the vertex list. -/
def goodMap (st : BuildState) : Prop :=
  ∀ k i, hfind st.hmap k = some i ↔ ∃ v, st.vertices[i]? = some v ∧ vkey v = k

theorem goodMap_init : goodMap initBuildState := by
  intro k i
  simp [hfind, initBuildState]

theorem goodMap_none (st : BuildState) (h : goodMap st) (k : VKey) :
    hfind st.hmap k = none ↔ ∀ v ∈ st.vertices, vkey v ≠ k := by
  constructor
  · intro hn v hv hk
    obtain ⟨n, hvn⟩ := (mem_iff_idx v st.vertices).mp hv
    have hs : hfind st.hmap k = some n := (h k n).mpr ⟨v, hvn, hk⟩
    rw [hn] at hs
    exact Option.noConfusion hs
  · intro hall
    cases he : hfind st.hmap k with
    | none => rfl
    | some i =>
        obtain ⟨v, hvi, hk⟩ := (h k i).mp he
        exact absurd hk (hall v ((mem_iff_idx v st.vertices).mpr ⟨i, hvi⟩))

theorem goodMap_insert (vs : List Vertex) (hm : List (VKey × Nat)) (v : Vertex)
    (h : ∀ k i, hfind hm k = some i ↔ ∃ w, vs[i]? = some w ∧ vkey w = k)
    (hnone : hfind hm (vkey v) = none) (k : VKey) (i : Nat) :
    hfind ((vkey v, vs.length) :: hm) k = some i ↔
      ∃ w, (vs ++ [v])[i]? = some w ∧ vkey w = k := by
  by_cases hk : vkey v = k
  · subst hk
    simp only [hfind, if_pos rfl]
    constructor
    · rintro h'
      injection h' with h'
      subst h'
      exact ⟨v, List.getElem?_concat_length vs v, rfl⟩
    · rintro ⟨w, hw, hkw⟩
      rcases Nat.lt_trichotomy i vs.length with hlt | heq | hgt
      · rw [List.getElem?_append_left hlt] at hw
        have hs : hfind hm (vkey w) = some i := (h (vkey w) i).mpr ⟨w, hw, rfl⟩
        rw [hkw, hnone] at hs
        exact Option.noConfusion hs
      · subst heq
        rfl
      · have hlen : (vs ++ [v]).length ≤ i := by
          simp only [List.length_append, List.length_singleton]
          omega
        rw [List.getElem?_eq_none hlen] at hw
        exact Option.noConfusion hw
  · simp only [hfind, if_neg hk]
    rw [h k i]
    constructor
    · rintro ⟨w, hw, hkw⟩
      have hlt : i < vs.length := (List.getElem?_eq_some.mp hw).1
      exact ⟨w, by rw [List.getElem?_append_left hlt]; exact hw, hkw⟩
    · rintro ⟨w, hw, hkw⟩
      rcases Nat.lt_trichotomy i vs.length with hlt | heq | hgt
      · rw [List.getElem?_append_left hlt] at hw
        exact ⟨w, hw, hkw⟩
      · subst heq
        rw [List.getElem?_concat_length] at hw
        injection hw with hw
        subst hw
        exact absurd hkw hk
      · have hlen : (vs ++ [v]).length ≤ i := by
          simp only [List.length_append, List.length_singleton]
          omega
        rw [List.getElem?_eq_none hlen] at hw
        exact Option.noConfusion hw

theorem buildStep_eq_found (st : BuildState) (c : Corner) (i : Nat)
    (h : hfind st.hmap (vkey (assembleVertex c)) = some i) :
    buildStep st c =
      { st with
          indices := st.indices ++ [i]
          hasNormals := st.hasNormals || c.normal.isSome
          hasTexCoords := st.hasTexCoords || c.texCoord.isSome } := by
  simp [buildStep, h]

theorem buildStep_eq_fresh (st : BuildState) (c : Corner)
    (h : hfind st.hmap (vkey (assembleVertex c)) = none) :
    buildStep st c =
      { st with
          vertices := st.vertices ++ [assembleVertex c]
          indices := st.indices ++ [st.vertices.length]
          hmap := (vkey (assembleVertex c), st.vertices.length) :: st.hmap
          hasNormals := st.hasNormals || c.normal.isSome
          hasTexCoords := st.hasTexCoords || c.texCoord.isSome } := by
  simp [buildStep, h]

theorem buildVertexIndex_append (cs : List Corner) (c : Corner) :
    buildVertexIndex (cs ++ [c]) = buildStep (buildVertexIndex cs) c := by
  simp [buildVertexIndex, List.foldl_append]

theorem specUniq_append (as : List Vertex) (a : Vertex) :
    specUniq (as ++ [a]) =
      if (specUniq as).any (fun b => vkey b = vkey a) then specUniq as
      else specUniq as ++ [a] := by
  simp [specUniq, List.foldl_append]

theorem specUniq_sub (as : List Vertex) : ∀ b ∈ specUniq as, b ∈ as := by
  induction as using List.reverseRecOn with
  | nil => simp [specUniq]
  | append_singleton l a ih =>
      intro b hb
      rw [specUniq_append] at hb
      by_cases h : (specUniq l).any (fun b => vkey b = vkey a)
      · rw [if_pos h] at hb
        exact List.mem_append_left _ (ih b hb)
      · rw [if_neg (by simpa using h)] at hb
        rcases List.mem_append.mp hb with h1 | h1
        · exact List.mem_append_left _ (ih b h1)
        · exact List.mem_append_right _ h1

theorem vkey_inj (a b : Vertex) (ht : a.tangent = b.tangent) (h : vkey a = vkey b) :
    a = b := by
  cases a
  cases b
  simp only [vkey, Prod.mk.injEq] at h
  simp_all

theorem assembleVertex_tangent (c : Corner) : (assembleVertex c).tangent = zeroV4 := rfl

def builtIdx (cs : List Corner) (p : Nat) : Nat := (buildVertexIndex cs).indices.getD p 0

def asmAt (cs : List Corner) (p : Nat) : Vertex := assembleVertex (cs.getD p cdummy)

theorem build_inv (cs : List Corner) :
    (buildVertexIndex cs).indices.length = cs.length ∧
    goodMap (buildVertexIndex cs) ∧
    (buildVertexIndex cs).vertices = specUniq (cs.map assembleVertex) ∧
    ∀ p, p < cs.length →
      builtIdx cs p < (buildVertexIndex cs).vertices.length ∧
      getVert (buildVertexIndex cs).vertices (builtIdx cs p) = asmAt cs p := by
  induction cs using List.reverseRecOn with
  | nil =>
      refine ⟨rfl, goodMap_init, rfl, ?_⟩
      intro p hp
      exact absurd hp (by simp)
  | append_singleton l c ih =>
      obtain ⟨ihlen, ihmap, ihuniq, ihidx⟩ := ih
      rw [buildVertexIndex_append]
      set st := buildVertexIndex l with hst
      set v := assembleVertex c with hv
      cases hf : hfind st.hmap (vkey v) with
      | some i =>
          rw [buildStep_eq_found st c i (hv ▸ hf)]
          obtain ⟨w, hwi, hwk⟩ := (ihmap (vkey v) i).mp hf
          have hwmem : w ∈ st.vertices := (mem_iff_idx w st.vertices).mpr ⟨i, hwi⟩
          have hwas : w ∈ l.map assembleVertex := specUniq_sub _ w (ihuniq ▸ hwmem)
          obtain ⟨c', _, hc'⟩ := List.mem_map.mp hwas
          have hwv : w = v := by
            apply vkey_inj _ _ _ hwk
            rw [← hc']
            rfl
          constructor
          · simp [ihlen]
          refine ⟨ihmap, ?_, ?_⟩
          · rw [List.map_append]
            simp only [List.map_cons, List.map_nil]
            rw [specUniq_append]
            have hany : (specUniq (l.map assembleVertex)).any
                (fun b => vkey b = vkey (assembleVertex c)) = true := by
              rw [List.any_eq_true]
              exact ⟨w, ihuniq ▸ hwmem, by simp [hwk]⟩
            rw [if_pos hany, ← ihuniq]
          · intro p hp
            rcases Nat.lt_or_ge p l.length with hpl | hpl
            · have hidx : builtIdx (l ++ [c]) p = builtIdx l p := by
                unfold builtIdx
                rw [buildVertexIndex_append, buildStep_eq_found st c i (hv ▸ hf)]
                exact getD_append_lt _ _ _ _ (ihlen ▸ hpl)
              have hasm : asmAt (l ++ [c]) p = asmAt l p := by
                unfold asmAt
                rw [getD_append_lt _ _ _ _ hpl]
              rw [hidx, hasm]
              exact ihidx p hpl
            · have hpe : p = l.length := by
                simp only [List.length_append, List.length_singleton] at hp
                omega
              subst hpe
              have hidx : builtIdx (l ++ [c]) l.length = i := by
                unfold builtIdx
                rw [buildVertexIndex_append, buildStep_eq_found st c i (hv ▸ hf)]
                show (st.indices ++ [i]).getD l.length 0 = i
                rw [← ihlen]
                exact getD_append_len _ _ _
              have hasm : asmAt (l ++ [c]) l.length = v := by
                unfold asmAt
                rw [getD_append_len]
              rw [hidx, hasm]
              refine ⟨(List.getElem?_eq_some.mp hwi).1, ?_⟩
              rw [← hwv]
              exact getD_of_idx _ _ _ _ hwi
      | none =>
          rw [buildStep_eq_fresh st c (hv ▸ hf)]
          have hfreshmem : ∀ w ∈ st.vertices, vkey w ≠ vkey v :=
            (goodMap_none st ihmap (vkey v)).mp hf
          constructor
          · simp [ihlen]
          refine ⟨?_, ?_, ?_⟩
          · exact goodMap_insert st.vertices st.hmap v ihmap hf
          · rw [List.map_append]
            simp only [List.map_cons, List.map_nil]
            rw [specUniq_append]
            have hany : (specUniq (l.map assembleVertex)).any
                (fun b => vkey b = vkey (assembleVertex c)) = false := by
              rw [← Bool.not_eq_true, List.any_eq_true]
              rintro ⟨b, hb, hbk⟩
              exact hfreshmem b (ihuniq ▸ hb) (by simpa using hbk)
            rw [if_neg (by simp [hany]), ← ihuniq]
          · intro p hp
            rcases Nat.lt_or_ge p l.length with hpl | hpl
            · obtain ⟨hbound, hget⟩ := ihidx p hpl
              have hidx : builtIdx (l ++ [c]) p = builtIdx l p := by
                unfold builtIdx
                rw [buildVertexIndex_append, buildStep_eq_fresh st c (hv ▸ hf)]
                exact getD_append_lt _ _ _ _ (ihlen ▸ hpl)
              have hasm : asmAt (l ++ [c]) p = asmAt l p := by
                unfold asmAt
                rw [getD_append_lt _ _ _ _ hpl]
              rw [hidx, hasm]
              constructor
              · simp only [List.length_append, List.length_singleton]
                omega
              · rw [← hget]
                unfold getVert
                rw [getD_append_lt _ _ _ _ hbound]
            · have hpe : p = l.length := by
                simp only [List.length_append, List.length_singleton] at hp
                omega
              subst hpe
              have hidx : builtIdx (l ++ [c]) l.length = st.vertices.length := by
                unfold builtIdx
                rw [buildVertexIndex_append, buildStep_eq_fresh st c (hv ▸ hf)]
                show (st.indices ++ [st.vertices.length]).getD l.length 0 = _
                rw [← ihlen]
                exact getD_append_len _ _ _
              have hasm : asmAt (l ++ [c]) l.length = v := by
                unfold asmAt
                rw [getD_append_len]
              rw [hidx, hasm]
              constructor
              · simp
              · exact getD_append_len _ _ _

theorem asmAt_append_lt (l : List Corner) (c : Corner) (p : Nat) (hp : p < l.length) :
    asmAt (l ++ [c]) p = asmAt l p := by
  unfold asmAt
  rw [getD_append_lt _ _ _ _ hp]

theorem asmAt_append_len (l : List Corner) (c : Corner) :
    asmAt (l ++ [c]) l.length = assembleVertex c := by
  unfold asmAt
  rw [getD_append_len]

theorem builtIdx_append_lt (l : List Corner) (c : Corner) (p : Nat) (hp : p < l.length) :
    builtIdx (l ++ [c]) p = builtIdx l p := by
  unfold builtIdx
  rw [buildVertexIndex_append]
  obtain ⟨ihlen, -, -, -⟩ := build_inv l
  cases hf : hfind (buildVertexIndex l).hmap (vkey (assembleVertex c)) with
  | some i =>
      rw [buildStep_eq_found _ c i hf]
      exact getD_append_lt _ _ _ _ (ihlen ▸ hp)
  | none =>
      rw [buildStep_eq_fresh _ c hf]
      exact getD_append_lt _ _ _ _ (ihlen ▸ hp)

theorem build_idx_iff (cs : List Corner) (p q : Nat) (hp : p < cs.length)
    (hq : q < cs.length) :
    builtIdx cs p = builtIdx cs q ↔ asmAt cs p = asmAt cs q := by
  obtain ⟨-, hmap, -, hidx⟩ := build_inv cs
  obtain ⟨hbp, hgp⟩ := hidx p hp
  obtain ⟨hbq, hgq⟩ := hidx q hq
  constructor
  · intro h
    rw [← hgp, ← hgq, h]
  · intro h
    have h1 : (buildVertexIndex cs).vertices[builtIdx cs p]? = some (asmAt cs p) := by
      rw [← hgp]
      exact idx_of_getD _ _ vdummy hbp
    have h2 : (buildVertexIndex cs).vertices[builtIdx cs q]? = some (asmAt cs q) := by
      rw [← hgq]
      exact idx_of_getD _ _ vdummy hbq
    have hs1 : hfind (buildVertexIndex cs).hmap (vkey (asmAt cs p)) = some (builtIdx cs p) :=
      (hmap _ _).mpr ⟨asmAt cs p, h1, rfl⟩
    have hs2 : hfind (buildVertexIndex cs).hmap (vkey (asmAt cs q)) = some (builtIdx cs q) :=
      (hmap _ _).mpr ⟨asmAt cs q, h2, rfl⟩
    rw [← h] at hs2
    rw [hs1] at hs2
    exact Option.some.inj hs2

theorem build_fresh_idx (cs : List Corner) :
    ∀ p, p < cs.length →
      (∀ q, q < p → asmAt cs q ≠ asmAt cs p) →
      builtIdx cs p = (buildVertexIndex (cs.take p)).vertices.length := by
  induction cs using List.reverseRecOn with
  | nil =>
      intro p hp
      exact absurd hp (by simp)
  | append_singleton l c ih =>
      intro p hp hfresh
      rcases Nat.lt_or_ge p l.length with hpl | hpl
      · have hfresh' : ∀ q, q < p → asmAt l q ≠ asmAt l p := by
          intro q hq
          rw [← asmAt_append_lt l c q (lt_trans hq hpl), ← asmAt_append_lt l c p hpl]
          exact hfresh q hq
        rw [builtIdx_append_lt l c p hpl,
          List.take_append_of_le_length (le_of_lt hpl)]
        exact ih p hpl hfresh'
      · have hpe : p = l.length := by
          simp only [List.length_append, List.length_singleton] at hp
          omega
        subst hpe
        obtain ⟨ihlen, ihmap, ihuniq, -⟩ := build_inv l
        set st := buildVertexIndex l with hst
        set v := assembleVertex c with hv
        have hnone : hfind st.hmap (vkey v) = none := by
          rw [goodMap_none st ihmap]
          intro w hw hk
          have hwas : w ∈ l.map assembleVertex := specUniq_sub _ w (ihuniq ▸ hw)
          obtain ⟨c', hc'mem, hc'⟩ := List.mem_map.mp hwas
          have hwv : w = v := by
            apply vkey_inj _ _ _ hk
            rw [← hc']
            rfl
          obtain ⟨n, hn⟩ := (mem_iff_idx c' l).mp hc'mem
          have hnl : n < l.length := (List.getElem?_eq_some.mp hn).1
          have hasm : asmAt l n = w := by
            unfold asmAt
            rw [getD_of_idx _ _ _ _ hn, hc']
          apply hfresh n hnl
          rw [asmAt_append_lt l c n hnl, asmAt_append_len, hasm, hwv]
        have hidx : builtIdx (l ++ [c]) l.length = st.vertices.length := by
          unfold builtIdx
          rw [buildVertexIndex_append, buildStep_eq_fresh st c (hv ▸ hnone)]
          show (st.indices ++ [st.vertices.length]).getD l.length 0 = _
          rw [← ihlen]
          exact getD_append_len _ _ _
        rw [hidx, List.take_left]

/-! ### Length / flag preservation -/

theorem addToNormal_length (vs : List Vertex) (i : Nat) (n : Vec3) :
    (addToNormal vs i n).length = vs.length := by
  unfold addToNormal
  cases h : vs[i]? <;> simp

theorem accumNormalStep_length (vs : List Vertex) (t : Nat × Nat × Nat) :
    (accumNormalStep vs t).length = vs.length := by
  unfold accumNormalStep
  simp [addToNormal_length]

theorem foldl_accumNormal_length (ts : List (Nat × Nat × Nat)) (vs : List Vertex) :
    (ts.foldl accumNormalStep vs).length = vs.length := by
  induction ts generalizing vs with
  | nil => rfl
  | cons t ts ih => rw [List.foldl_cons, ih, accumNormalStep_length]

theorem computeNormals_indices (nrm : Vec3 → Vec3) (m : Model) :
    (computeNormals nrm m).indices = m.indices := rfl

theorem computeNormals_vcount (nrm : Vec3 → Vec3) (m : Model) :
    (computeNormals nrm m).vertices.length = m.vertices.length := by
  simp [computeNormals, foldl_accumNormal_length]

theorem addToTangent_length (vs : List Vertex) (i : Nat) (t : Vec4) :
    (addToTangent vs i t).length = vs.length := by
  unfold addToTangent
  cases h : vs[i]? <;> simp

theorem addToBit_length (bs : List Vec3) (i : Nat) (b : Vec3) :
    (addToBit bs i b).length = bs.length := by
  unfold addToBit
  cases h : bs[i]? <;> simp

theorem tangentStep_lengths (st : List Vertex × List Vec3) (tr : Nat × Nat × Nat) :
    (tangentStep st tr).1.length = st.1.length ∧
    (tangentStep st tr).2.length = st.2.length := by
  unfold tangentStep
  simp [addToTangent_length, addToBit_length]

theorem tangentAccum_lengths (m : Model) :
    (tangentAccum m).1.length = m.vertices.length ∧
    (tangentAccum m).2.length = m.vertices.length := by
  unfold tangentAccum
  generalize triples m.indices = ts
  generalize hv : m.vertices = vs
  have : ∀ (ts : List (Nat × Nat × Nat)) (st : List Vertex × List Vec3),
      (ts.foldl tangentStep st).1.length = st.1.length ∧
      (ts.foldl tangentStep st).2.length = st.2.length := by
    intro ts
    induction ts with
    | nil => intro st; exact ⟨rfl, rfl⟩
    | cons t ts ih =>
        intro st
        rw [List.foldl_cons]
        obtain ⟨h1, h2⟩ := ih (tangentStep st t)
        obtain ⟨g1, g2⟩ := tangentStep_lengths st t
        exact ⟨h1.trans g1, h2.trans g2⟩
  obtain ⟨h1, h2⟩ := this ts (vs, List.replicate vs.length zeroV)
  rw [h1, h2]
  simp

theorem computeTangents_indices (nrm : Vec3 → Vec3) (m : Model) :
    (computeTangents nrm m).indices = m.indices := rfl

theorem computeTangents_vcount (nrm : Vec3 → Vec3) (m : Model) :
    (computeTangents nrm m).vertices.length = m.vertices.length := by
  obtain ⟨h1, h2⟩ := tangentAccum_lengths m
  simp [computeTangents, h1, h2]

theorem standardize_indices (sq : Q → Q) (m : Model) :
    (standardize sq m).indices = m.indices := rfl

theorem standardize_vcount (sq : Q → Q) (m : Model) :
    (standardize sq m).vertices.length = m.vertices.length := by
  simp [standardize]

theorem standardize_flags (sq : Q → Q) (m : Model) :
    (standardize sq m).hasNormals = m.hasNormals ∧
    (standardize sq m).hasTexCoords = m.hasTexCoords :=
  ⟨rfl, rfl⟩

theorem loadDiffuseTexture_core (ok : Bool) (tex : Nat) (m : Model) :
    (loadDiffuseTexture ok tex m).vertices = m.vertices ∧
    (loadDiffuseTexture ok tex m).indices = m.indices ∧
    (loadDiffuseTexture ok tex m).hasNormals = m.hasNormals ∧
    (loadDiffuseTexture ok tex m).hasTexCoords = m.hasTexCoords ∧
    (loadDiffuseTexture ok tex m).Ka = m.Ka ∧
    (loadDiffuseTexture ok tex m).Kd = m.Kd ∧
    (loadDiffuseTexture ok tex m).Ks = m.Ks ∧
    (loadDiffuseTexture ok tex m).shininess = m.shininess := by
  cases ok <;> simp [loadDiffuseTexture]

theorem loadNormalTexture_core (ok : Bool) (tex : Nat) (m : Model) :
    (loadNormalTexture ok tex m).vertices = m.vertices ∧
    (loadNormalTexture ok tex m).indices = m.indices ∧
    (loadNormalTexture ok tex m).hasNormals = m.hasNormals ∧
    (loadNormalTexture ok tex m).hasTexCoords = m.hasTexCoords ∧
    (loadNormalTexture ok tex m).Ka = m.Ka ∧
    (loadNormalTexture ok tex m).Kd = m.Kd ∧
    (loadNormalTexture ok tex m).Ks = m.Ks ∧
    (loadNormalTexture ok tex m).shininess = m.shininess ∧
    (loadNormalTexture ok tex m).diffuseTexture = m.diffuseTexture := by
  cases ok <;> simp [loadNormalTexture]

theorem resolveMaterial_core (f : Nat → Bool) (g : Nat → Nat) (mats : List MtlRec)
    (m : Model) :
    (resolveMaterial f g mats m).vertices = m.vertices ∧
    (resolveMaterial f g mats m).indices = m.indices ∧
    (resolveMaterial f g mats m).hasNormals = m.hasNormals ∧
    (resolveMaterial f g mats m).hasTexCoords = m.hasTexCoords := by
  cases mats with
  | nil => simp [resolveMaterial]
  | cons mat rest =>
      simp only [resolveMaterial]
      cases mat.diffuse_texname <;> cases mat.normal_texname <;> cases mat.bump_texname <;>
        simp [loadDiffuseTexture_core, loadNormalTexture_core]

/-! ### Sample inputs for witnesses -/

def cornerA : Corner := ⟨⟨0, 0, 0⟩, none, none⟩

def cornerB : Corner := ⟨⟨1, 0, 0⟩, none, none⟩

def cornerC : Corner := ⟨⟨0, 1, 0⟩, none, none⟩

def csSample : List Corner := [cornerA, cornerB, cornerA]

def csTri : List Corner := [cornerA, cornerB, cornerC]

def mEmpty : Model := ⟨[], [], false, false, zeroV4, zeroV4, zeroV4, 0, 0, 0⟩

/-! ### Claim theorems -/

/-- C1: during the build, two corners get the same index iff their
assembled vertices (position, normal, texcoord zero-filled when absent)
are identical; a corner whose vertex is not yet in the mapping gets the
next sequential index, the unique-vertex count at that point, and the
vertex list is the assembled corner vertices deduplicated in
first-occurrence order. -/
theorem C1_vertex_dedup (cs : List Corner) :
    (∀ p q, p < cs.length → q < cs.length →
      (builtIdx cs p = builtIdx cs q ↔ asmAt cs p = asmAt cs q)) ∧
    (∀ p, p < cs.length → (∀ q, q < p → asmAt cs q ≠ asmAt cs p) →
      builtIdx cs p = (buildVertexIndex (cs.take p)).vertices.length) ∧
    (buildVertexIndex cs).vertices = specUniq (cs.map assembleVertex) :=
  ⟨fun p q hp hq => build_idx_iff cs p q hp hq, build_fresh_idx cs, (build_inv cs).2.2.1⟩

theorem C1_vertex_dedup_witness :
    ((0 : Nat) < csSample.length ∧ (2 : Nat) < csSample.length) ∧
    (builtIdx csSample 0 = builtIdx csSample 2 ↔ asmAt csSample 0 = asmAt csSample 2) :=
  ⟨⟨by decide, by decide⟩, (C1_vertex_dedup csSample).1 0 2 (by decide) (by decide)⟩

/-- C6: after the build every index is strictly below the vertex count,
the index count equals the corner count (hence a multiple of 3 when the
corners come in triangles), and `computeNormals`, `computeTangents` and
`standardize` leave the index sequence and the vertex count unchanged. -/
theorem C6_mesh_invariant :
    (∀ cs : List Corner,
      (∀ i ∈ (buildVertexIndex cs).indices, i < (buildVertexIndex cs).vertices.length) ∧
      (buildVertexIndex cs).indices.length = cs.length ∧
      (3 ∣ cs.length → 3 ∣ (buildVertexIndex cs).indices.length)) ∧
    (∀ (nrm : Vec3 → Vec3) (m : Model),
      (computeNormals nrm m).indices = m.indices ∧
      (computeNormals nrm m).vertices.length = m.vertices.length) ∧
    (∀ (nrm : Vec3 → Vec3) (m : Model),
      (computeTangents nrm m).indices = m.indices ∧
      (computeTangents nrm m).vertices.length = m.vertices.length) ∧
    (∀ (sq : Q → Q) (m : Model),
      (standardize sq m).indices = m.indices ∧
      (standardize sq m).vertices.length = m.vertices.length) := by
  refine ⟨fun cs => ⟨?_, (build_inv cs).1, fun h => (build_inv cs).1 ▸ h⟩,
    fun nrm m => ⟨computeNormals_indices nrm m, computeNormals_vcount nrm m⟩,
    fun nrm m => ⟨computeTangents_indices nrm m, computeTangents_vcount nrm m⟩,
    fun sq m => ⟨standardize_indices sq m, standardize_vcount sq m⟩⟩
  intro i hi
  obtain ⟨hlen, -, -, hidx⟩ := build_inv cs
  obtain ⟨p, hp⟩ := (mem_iff_idx i _).mp hi
  have hplen : p < (buildVertexIndex cs).indices.length := (List.getElem?_eq_some.mp hp).1
  have hgot : builtIdx cs p = i := getD_of_idx _ _ _ _ hp
  rw [← hgot]
  exact (hidx p (hlen ▸ hplen)).1

theorem C6_mesh_invariant_witness :
    ((3 : Nat) ∣ csTri.length) ∧ (3 : Nat) ∣ (buildVertexIndex csTri).indices.length :=
  ⟨by decide, ((C6_mesh_invariant.1 csTri).2.2 (by decide))⟩

/-- C8: with an empty material list the load installs the fixed defaults
(ambient 0.1, diffuse 0.7, specular 1, alpha 1, shininess 25); with a
non-empty list exactly the first material's colors are used with alpha
fixed at 1. -/
theorem C8_material_resolution (f : Nat → Bool) (g : Nat → Nat) (mats : List MtlRec)
    (m : Model) :
    (mats = [] →
      (resolveMaterial f g mats m).Ka = ⟨1/10, 1/10, 1/10, 1⟩ ∧
      (resolveMaterial f g mats m).Kd = ⟨7/10, 7/10, 7/10, 1⟩ ∧
      (resolveMaterial f g mats m).Ks = ⟨1, 1, 1, 1⟩ ∧
      (resolveMaterial f g mats m).shininess = 25) ∧
    (∀ mat rest, mats = mat :: rest →
      (resolveMaterial f g mats m).Ka = ⟨mat.ambient.x, mat.ambient.y, mat.ambient.z, 1⟩ ∧
      (resolveMaterial f g mats m).Kd = ⟨mat.diffuse.x, mat.diffuse.y, mat.diffuse.z, 1⟩ ∧
      (resolveMaterial f g mats m).Ks = ⟨mat.specular.x, mat.specular.y, mat.specular.z, 1⟩ ∧
      (resolveMaterial f g mats m).shininess = mat.shininess) := by
  constructor
  · rintro rfl
    simp [resolveMaterial]
  · rintro mat rest rfl
    simp only [resolveMaterial]
    cases mat.diffuse_texname <;> cases mat.normal_texname <;> cases mat.bump_texname <;>
      simp [loadDiffuseTexture_core, loadNormalTexture_core]

theorem C8_material_resolution_witness :
    (([] : List MtlRec) = [] ∧
      (resolveMaterial (fun _ => false) (fun _ => 0) [] mEmpty).shininess = 25) := by
  refine ⟨rfl, ?_⟩
  exact ((C8_material_resolution (fun _ => false) (fun _ => 0) [] mEmpty).1 rfl).2.2.2

/-- C10: `computeNormals` unconditionally sets `m_hasNormals` to true on
completion, so any later recompute path observes it as true even when
the source supplied no normals. -/
theorem C10_computeNormals_flag (nrm : Vec3 → Vec3) (m : Model) :
    (computeNormals nrm m).hasNormals = true := rfl

/-! ### Abstract hash-map interface for the determinism hyperproperty -/

/-- An abstract key→index map standing for `std::unordered_map<Vertex,
GLuint>`: the build only queries and inserts, never iterates the map. -/
structure MapImpl (σ : Type) where
  empty : σ
  find : σ → VKey → Option Nat
  insert : σ → VKey → Nat → σ

/-- The map behaves as a partial function: an empty map finds nothing,
and insert overrides exactly its key. Every hash table satisfies this
whatever its bucket layout or iteration order. -/
def LawfulMap {σ : Type} (M : MapImpl σ) : Prop :=
  (∀ k, M.find M.empty k = none) ∧
  ∀ s k i k', M.find (M.insert s k i) k' = if k = k' then some i else M.find s k'

/-- The observable output of the build: what the loader keeps. -/
structure BuildOut where
  vertices : List Vertex
  indices : List Nat
  hasNormals : Bool
  hasTexCoords : Bool
deriving DecidableEq

/-- The corner-loop body of `loadFromFile`, parameterized over the map
implementation. -/
def buildWithStep {σ : Type} (M : MapImpl σ) (st : BuildOut × σ) (c : Corner) :
    BuildOut × σ :=
  let o := st.1
  let s := st.2
  let v := assembleVertex c
  let o :=
    { o with
        hasNormals := o.hasNormals || c.normal.isSome
        hasTexCoords := o.hasTexCoords || c.texCoord.isSome }
  match M.find s (vkey v) with
  | some i => ({ o with indices := o.indices ++ [i] }, s)
  | none =>
      let n := o.vertices.length
      ({ o with vertices := o.vertices ++ [v], indices := o.indices ++ [n] },
        M.insert s (vkey v) n)

def buildWith {σ : Type} (M : MapImpl σ) (cs : List Corner) : BuildOut :=
  (cs.foldl (buildWithStep M) (⟨[], [], false, false⟩, M.empty)).1

theorem buildWith_states {σ1 σ2 : Type} (M1 : MapImpl σ1) (M2 : MapImpl σ2)
    (h1 : LawfulMap M1) (h2 : LawfulMap M2) :
    ∀ (cs : List Corner) (o : BuildOut) (s1 : σ1) (s2 : σ2),
      (∀ k, M1.find s1 k = M2.find s2 k) →
      (cs.foldl (buildWithStep M1) (o, s1)).1 = (cs.foldl (buildWithStep M2) (o, s2)).1 := by
  intro cs
  induction cs with
  | nil =>
      intro o s1 s2 h
      rfl
  | cons c cs ih =>
      intro o s1 s2 h
      rw [List.foldl_cons, List.foldl_cons]
      unfold buildWithStep
      simp only
      rw [← h (vkey (assembleVertex c))]
      cases hf : M1.find s1 (vkey (assembleVertex c)) with
      | some i => exact ih _ s1 s2 h
      | none =>
          apply ih
          intro k
          rw [h1.2, h2.2, h k]

def assocMapImpl : MapImpl (List (VKey × Nat)) :=
  ⟨[], hfind, fun s k i => (k, i) :: s⟩

def funMapImpl : MapImpl (VKey → Option Nat) :=
  ⟨fun _ => none, fun s k => s k, fun s k i k' => if k = k' then some i else s k'⟩

theorem buildWith_assoc_aux :
    ∀ (cs : List Corner) (st : BuildState),
      (cs.foldl (buildWithStep assocMapImpl)
        (⟨st.vertices, st.indices, st.hasNormals, st.hasTexCoords⟩, st.hmap)).1 =
      ⟨(cs.foldl buildStep st).vertices, (cs.foldl buildStep st).indices,
        (cs.foldl buildStep st).hasNormals, (cs.foldl buildStep st).hasTexCoords⟩ := by
  intro cs
  induction cs with
  | nil =>
      intro st
      rfl
  | cons c cs ih =>
      intro st
      rw [List.foldl_cons, List.foldl_cons]
      cases hf : hfind st.hmap (vkey (assembleVertex c)) with
      | some i =>
          have e1 : buildWithStep assocMapImpl
              (⟨st.vertices, st.indices, st.hasNormals, st.hasTexCoords⟩, st.hmap) c =
              (⟨st.vertices, st.indices ++ [i], st.hasNormals || c.normal.isSome,
                st.hasTexCoords || c.texCoord.isSome⟩, st.hmap) := by
            simp [buildWithStep, assocMapImpl, hf]
          rw [e1, buildStep_eq_found st c i hf]
          exact ih
            { st with
                indices := st.indices ++ [i]
                hasNormals := st.hasNormals || c.normal.isSome
                hasTexCoords := st.hasTexCoords || c.texCoord.isSome }
      | none =>
          have e1 : buildWithStep assocMapImpl
              (⟨st.vertices, st.indices, st.hasNormals, st.hasTexCoords⟩, st.hmap) c =
              (⟨st.vertices ++ [assembleVertex c], st.indices ++ [st.vertices.length],
                st.hasNormals || c.normal.isSome, st.hasTexCoords || c.texCoord.isSome⟩,
                (vkey (assembleVertex c), st.vertices.length) :: st.hmap) := by
            simp [buildWithStep, assocMapImpl, hf]
          rw [e1, buildStep_eq_fresh st c hf]
          exact ih
            { st with
                vertices := st.vertices ++ [assembleVertex c]
                indices := st.indices ++ [st.vertices.length]
                hmap := (vkey (assembleVertex c), st.vertices.length) :: st.hmap
                hasNormals := st.hasNormals || c.normal.isSome
                hasTexCoords := st.hasTexCoords || c.texCoord.isSome }

theorem buildWith_assoc (cs : List Corner) :
    buildWith assocMapImpl cs =
      ⟨(buildVertexIndex cs).vertices, (buildVertexIndex cs).indices,
        (buildVertexIndex cs).hasNormals, (buildVertexIndex cs).hasTexCoords⟩ :=
  buildWith_assoc_aux cs initBuildState

theorem computeNormals_texflag (nrm : Vec3 → Vec3) (m : Model) :
    (computeNormals nrm m).hasTexCoords = m.hasTexCoords := rfl

theorem computeNormals_diffuse (nrm : Vec3 → Vec3) (m : Model) :
    (computeNormals nrm m).diffuseTexture = m.diffuseTexture := rfl

theorem computeTangents_diffuse (nrm : Vec3 → Vec3) (m : Model) :
    (computeTangents nrm m).diffuseTexture = m.diffuseTexture := rfl

theorem standardize_diffuse (sq : Q → Q) (m : Model) :
    (standardize sq m).diffuseTexture = m.diffuseTexture := rfl

theorem loadNormalTexture_diffuse (ok : Bool) (tex : Nat) (m : Model) :
    (loadNormalTexture ok tex m).diffuseTexture = m.diffuseTexture := by
  cases ok <;> simp [loadNormalTexture]

theorem resolveMaterial_diffuseTexture (f : Nat → Bool) (g : Nat → Nat) (mat : MtlRec)
    (rest : List MtlRec) (m : Model) (nm : Nat) (hnm : mat.diffuse_texname = some nm)
    (hok : f nm = false) :
    (resolveMaterial f g (mat :: rest) m).diffuseTexture = m.diffuseTexture := by
  simp only [resolveMaterial, hnm]
  cases mat.normal_texname <;> cases mat.bump_texname <;>
    simp [loadDiffuseTexture, hok, loadNormalTexture_diffuse]

/-- C5: the vertex/index build is deterministic: its output depends only
on the input corner sequence, not on the hash table implementation — any
two maps satisfying the query/insert contract (which every
`std::unordered_map`, with any bucket layout or iteration order, does)
produce identical vertex and index sequences, equal to the concrete
build's output. -/
theorem C5_build_deterministic {σ1 σ2 : Type} (M1 : MapImpl σ1) (M2 : MapImpl σ2)
    (h1 : LawfulMap M1) (h2 : LawfulMap M2) (cs : List Corner) :
    buildWith M1 cs = buildWith M2 cs ∧
    (buildWith M1 cs).vertices = (buildVertexIndex cs).vertices ∧
    (buildWith M1 cs).indices = (buildVertexIndex cs).indices := by
  have key : ∀ {σ σ' : Type} (Ma : MapImpl σ) (Mb : MapImpl σ'),
      LawfulMap Ma → LawfulMap Mb → buildWith Ma cs = buildWith Mb cs := by
    intro σ σ' Ma Mb ha hb
    unfold buildWith
    exact buildWith_states Ma Mb ha hb cs _ _ _ (fun k => by rw [ha.1, hb.1])
  have link := key M1 assocMapImpl h1 ⟨fun _ => rfl, fun _ _ _ _ => rfl⟩
  rw [buildWith_assoc] at link
  exact ⟨key M1 M2 h1 h2, by rw [link], by rw [link]⟩

theorem C5_build_deterministic_witness :
    LawfulMap funMapImpl ∧ buildWith funMapImpl csSample = buildWith assocMapImpl csSample :=
  ⟨⟨fun _ => rfl, fun _ _ _ _ => rfl⟩,
    (C5_build_deterministic funMapImpl assocMapImpl ⟨fun _ => rfl, fun _ _ _ _ => rfl⟩
      ⟨fun _ => rfl, fun _ _ _ _ => rfl⟩ csSample).1⟩

/-- C7: one load runs build → resolve-material → standardize (iff the
caller's flag) → computeNormals (iff no corner supplied a normal) →
computeTangents (iff some corner supplied a texcoord, regardless of
normals): the code's state-dependent conditions coincide with the staged
pipeline whose conditions read only the build output and caller flag. -/
theorem C7_load_pipeline (nrm : Vec3 → Vec3) (sq : Q → Q) (f : Nat → Bool)
    (g : Nat → Nat) (cs : List Corner) (mats : List MtlRec) (std : Bool) (m0 : Model) :
    loadFromFile nrm sq f g cs mats std m0 = stagedLoad nrm sq f g cs mats std m0 := by
  unfold loadFromFile stagedLoad
  dsimp only
  set b := buildVertexIndex cs with hb
  set m1 : Model :=
    { m0 with
        vertices := b.vertices
        indices := b.indices
        hasNormals := b.hasNormals
        hasTexCoords := b.hasTexCoords } with hm1
  set m2 := resolveMaterial f g mats m1 with hm2
  have h2n : m2.hasNormals = b.hasNormals := (resolveMaterial_core f g mats m1).2.2.1
  have h2t : m2.hasTexCoords = b.hasTexCoords := (resolveMaterial_core f g mats m1).2.2.2
  set m3 := if std then standardize sq m2 else m2 with hm3
  have h3n : m3.hasNormals = b.hasNormals := by
    rw [hm3]
    cases std <;> simp [standardize, h2n]
  have h3t : m3.hasTexCoords = b.hasTexCoords := by
    rw [hm3]
    cases std <;> simp [standardize, h2t]
  have h4 : (if !m3.hasNormals then computeNormals nrm m3 else m3) =
      (if b.hasNormals then m3 else computeNormals nrm m3) := by
    rw [h3n]
    cases b.hasNormals <;> simp
  rw [h4]
  have h4t : (if b.hasNormals then m3 else computeNormals nrm m3).hasTexCoords =
      b.hasTexCoords := by
    cases b.hasNormals <;> simp [computeNormals_texflag, h3t]
  rw [h4t]

/-- C9: a load whose first material references a diffuse-texture file
that does not exist succeeds with the model's diffuse-texture state
unchanged: `loadDiffuseTexture` returns without touching the model, and
the whole load leaves `m_diffuseTexture` as it was before the call. -/
theorem C9_missing_texture (nrm : Vec3 → Vec3) (sq : Q → Q) (f : Nat → Bool)
    (g : Nat → Nat) (cs : List Corner) (mat : MtlRec) (rest : List MtlRec)
    (std : Bool) (m0 : Model) (nm : Nat) (hnm : mat.diffuse_texname = some nm)
    (hok : f nm = false) :
    (∀ (tex : Nat) (m : Model), loadDiffuseTexture (f nm) tex m = m) ∧
    (loadFromFile nrm sq f g cs (mat :: rest) std m0).diffuseTexture =
      m0.diffuseTexture := by
  constructor
  · intro tex m
    rw [hok]
    rfl
  · unfold loadFromFile
    dsimp only
    set b := buildVertexIndex cs with hb
    set m1 : Model :=
      { m0 with
          vertices := b.vertices
          indices := b.indices
          hasNormals := b.hasNormals
          hasTexCoords := b.hasTexCoords } with hm1
    have h2 : (resolveMaterial f g (mat :: rest) m1).diffuseTexture = m1.diffuseTexture :=
      resolveMaterial_diffuseTexture f g mat rest m1 nm hnm hok
    set m2 := resolveMaterial f g (mat :: rest) m1 with hm2
    set m3 := if std then standardize sq m2 else m2 with hm3
    have h3 : m3.diffuseTexture = m2.diffuseTexture := by
      rw [hm3]
      cases std <;> simp [standardize_diffuse]
    set m4 := if !m3.hasNormals then computeNormals nrm m3 else m3 with hm4
    have h4 : m4.diffuseTexture = m3.diffuseTexture := by
      rw [hm4]
      cases m3.hasNormals <;> simp [computeNormals_diffuse]
    have h5 : (if m4.hasTexCoords then computeTangents nrm m4 else m4).diffuseTexture =
        m4.diffuseTexture := by
      cases m4.hasTexCoords <;> simp [computeTangents_diffuse]
    rw [h5, h4, h3, h2]

def matTex : MtlRec := ⟨zeroV, zeroV, zeroV, 0, some 5, none, none⟩

theorem C9_missing_texture_witness :
    (matTex.diffuse_texname = some 5 ∧ (fun _ : Nat => false) 5 = false) ∧
    (loadFromFile (fun v => v) (fun q => q) (fun _ => false) (fun n => n) [] [matTex]
        false mEmpty).diffuseTexture = mEmpty.diffuseTexture :=
  ⟨⟨rfl, rfl⟩,
    (C9_missing_texture (fun v => v) (fun q => q) (fun _ => false) (fun n => n) [] matTex []
      false mEmpty 5 rfl rfl).2⟩

/-! ### Normal accumulation (C2) -/

theorem set_idx_self {α : Type} (l : List α) (i : Nat) (x : α) (h : i < l.length) :
    (l.set i x)[i]? = some x := by
  rw [List.getElem?_set_self']
  simp [List.getElem?_eq_getElem h]

theorem set_idx_ne {α : Type} (l : List α) (i j : Nat) (x : α) (h : j ≠ i) :
    (l.set i x)[j]? = l[j]? :=
  List.getElem?_set_ne (fun he => h he.symm)

theorem addV_zeroR (v : Vec3) : addV v zeroV = v := by
  cases v
  simp [addV, zeroV]

theorem addV_zeroL (v : Vec3) : addV zeroV v = v := by
  cases v
  simp [addV, zeroV]

theorem addV_assoc (u v w : Vec3) : addV (addV u v) w = addV u (addV v w) := by
  cases u
  cases v
  cases w
  simp only [addV, Vec3.mk.injEq]
  refine ⟨by ring, by ring, by ring⟩

/-- How many of the three corners of the triplet reference vertex `i`. -/
def cornerCount (i : Nat) (t : Nat × Nat × Nat) : Nat :=
  (if i = t.1 then 1 else 0) + (if i = t.2.1 then 1 else 0) + (if i = t.2.2 then 1 else 0)

/-- The face normal of one index triplet over a position lookup: cross
product of the edges (b − a) and (c − b), exactly the code's edge
choice. -/
def faceNormalP (pos : Nat → Vec3) (t : Nat × Nat × Nat) : Vec3 :=
  crossV (subV (pos t.2.1) (pos t.1)) (subV (pos t.2.2) (pos t.2.1))

/-- The accumulated (unnormalized) normal of vertex `i`: the sum over
all triplets of the face normal, counted once per corner referencing
`i`. -/
def accumNormal (pos : Nat → Vec3) (ts : List (Nat × Nat × Nat)) (i : Nat) : Vec3 :=
  ts.foldr (fun t acc => addV (smulV (cornerCount i t : Q) (faceNormalP pos t)) acc) zeroV

theorem addToNormal_normal (vs : List Vertex) (a : Nat) (n : Vec3) (ha : a < vs.length)
    (j : Nat) :
    (getVert (addToNormal vs a n) j).normal =
      if j = a then addV (getVert vs j).normal n else (getVert vs j).normal := by
  have hsome : vs[a]? = some (vs.getD a vdummy) := idx_of_getD vs a vdummy ha
  unfold addToNormal
  rw [hsome]
  by_cases hj : j = a
  · subst hj
    rw [if_pos rfl]
    unfold getVert
    rw [getD_of_idx _ j _ vdummy (set_idx_self vs j _ ha)]
  · rw [if_neg hj]
    unfold getVert
    simp only [List.getD, List.get?_eq_getElem?]
    rw [set_idx_ne vs a j _ hj]

theorem addToNormal_keep (vs : List Vertex) (a : Nat) (n : Vec3) (j : Nat) :
    (getVert (addToNormal vs a n) j).position = (getVert vs j).position ∧
    (getVert (addToNormal vs a n) j).texCoord = (getVert vs j).texCoord ∧
    (getVert (addToNormal vs a n) j).tangent = (getVert vs j).tangent := by
  unfold addToNormal
  cases h : vs[a]? with
  | none => exact ⟨rfl, rfl, rfl⟩
  | some v =>
      by_cases hj : j = a
      · subst hj
        unfold getVert
        have hlt : j < vs.length := (List.getElem?_eq_some.mp h).1
        have hv : vs.getD j vdummy = v := getD_of_idx _ _ _ _ h
        rw [getD_of_idx _ j _ vdummy (set_idx_self vs j _ hlt), hv]
        exact ⟨rfl, rfl, rfl⟩
      · unfold getVert
        simp only [List.getD, List.get?_eq_getElem?]
        rw [set_idx_ne vs a j _ hj]
        exact ⟨rfl, rfl, rfl⟩

theorem addV_ite_chain (P1 P2 P3 : Prop) [Decidable P1] [Decidable P2] [Decidable P3]
    (z n : Vec3) :
    (if P3 then
        addV (if P2 then addV (if P1 then addV z n else z) n
          else (if P1 then addV z n else z)) n
      else (if P2 then addV (if P1 then addV z n else z) n
        else (if P1 then addV z n else z))) =
    addV z (smulV
      (((if P1 then 1 else 0) + (if P2 then 1 else 0) + (if P3 then 1 else 0) : Nat) : Q)
      n) := by
  rcases z with ⟨zx, zy, zz⟩
  rcases n with ⟨nx, ny, nz⟩
  by_cases h1 : P1 <;> by_cases h2 : P2 <;> by_cases h3 : P3 <;>
    simp [h1, h2, h3, addV, smulV, Vec3.mk.injEq] <;>
    refine ⟨by ring, by ring, by ring⟩

theorem accumNormalStep_normal (vs : List Vertex) (a b c : Nat)
    (ha : a < vs.length) (hb : b < vs.length) (hc : c < vs.length) (i : Nat) :
    (getVert (accumNormalStep vs (a, b, c)) i).normal =
      addV (getVert vs i).normal
        (smulV (cornerCount i (a, b, c) : Q)
          (faceNormalP (fun j => (getVert vs j).position) (a, b, c))) := by
  unfold accumNormalStep
  dsimp only
  set n := crossV (subV (getVert vs b).position (getVert vs a).position)
    (subV (getVert vs c).position (getVert vs b).position) with hn
  have hfp : faceNormalP (fun j => (getVert vs j).position) (a, b, c) = n := rfl
  rw [hfp]
  have hb1 : b < (addToNormal vs a n).length := by
    rw [addToNormal_length]
    exact hb
  have hc2 : c < (addToNormal (addToNormal vs a n) b n).length := by
    rw [addToNormal_length, addToNormal_length]
    exact hc
  rw [addToNormal_normal _ c n hc2 i, addToNormal_normal _ b n hb1 i,
    addToNormal_normal vs a n ha i]
  exact addV_ite_chain (i = a) (i = b) (i = c) (getVert vs i).normal n

theorem accumNormalStep_position (vs : List Vertex) (t : Nat × Nat × Nat) (j : Nat) :
    (getVert (accumNormalStep vs t) j).position = (getVert vs j).position := by
  unfold accumNormalStep
  dsimp only
  rw [(addToNormal_keep _ _ _ j).1, (addToNormal_keep _ _ _ j).1,
    (addToNormal_keep _ _ _ j).1]

theorem foldl_accumNormal_normal (ts : List (Nat × Nat × Nat)) :
    ∀ (vs : List Vertex),
      (∀ t ∈ ts, t.1 < vs.length ∧ t.2.1 < vs.length ∧ t.2.2 < vs.length) →
      ∀ i, (getVert (ts.foldl accumNormalStep vs) i).normal =
        addV (getVert vs i).normal
          (accumNormal (fun j => (getVert vs j).position) ts i) := by
  induction ts with
  | nil =>
      intro vs _ i
      exact (addV_zeroR _).symm
  | cons t ts ih =>
      intro vs hr i
      obtain ⟨h1, h2, h3⟩ := hr t (List.mem_cons_self t ts)
      rw [List.foldl_cons]
      have hr' : ∀ t' ∈ ts, t'.1 < (accumNormalStep vs t).length ∧
          t'.2.1 < (accumNormalStep vs t).length ∧
          t'.2.2 < (accumNormalStep vs t).length := by
        intro t' ht'
        rw [accumNormalStep_length]
        exact hr t' (List.mem_cons_of_mem t ht')
      rw [ih (accumNormalStep vs t) hr' i]
      have hpos : (fun j => (getVert (accumNormalStep vs t) j).position) =
          (fun j => (getVert vs j).position) := funext (accumNormalStep_position vs t)
      rw [hpos]
      obtain ⟨a, b, c⟩ := t
      rw [accumNormalStep_normal vs a b c h1 h2 h3 i, addV_assoc]
      rfl

theorem getVert_map (f : Vertex → Vertex) (vs : List Vertex) (i : Nat)
    (h : i < vs.length) :
    getVert (vs.map f) i = f (getVert vs i) := by
  unfold getVert
  have hs := idx_of_getD vs i vdummy h
  have : (vs.map f)[i]? = some (f (vs.getD i vdummy)) := by
    rw [List.getElem?_map, hs]
    rfl
  simp [List.getD, this]

theorem getVert_map_reset_pos (vs : List Vertex) (j : Nat) :
    (getVert (vs.map (fun v => { v with normal := zeroV })) j).position =
      (getVert vs j).position := by
  by_cases h : j < vs.length
  · rw [getVert_map _ _ _ h]
  · unfold getVert
    have h1 : vs.length ≤ j := Nat.le_of_not_lt h
    have h2 : (vs.map (fun v => { v with normal := zeroV })).length ≤ j := by
      rw [List.length_map]
      exact h1
    simp [List.getD, List.getElem?_eq_none h1, List.getElem?_eq_none h2]

theorem accumNormal_zero (pos : Nat → Vec3) (ts : List (Nat × Nat × Nat)) (i : Nat)
    (h : ∀ t ∈ ts, i ≠ t.1 ∧ i ≠ t.2.1 ∧ i ≠ t.2.2) :
    accumNormal pos ts i = zeroV := by
  induction ts with
  | nil => rfl
  | cons t ts ih =>
      obtain ⟨h1, h2, h3⟩ := h t (List.mem_cons_self t ts)
      have hcc : cornerCount i t = 0 := by
        simp [cornerCount, h1, h2, h3]
      show addV (smulV (cornerCount i t : Q) (faceNormalP pos t))
        (accumNormal pos ts i) = zeroV
      rw [hcc, ih (fun t' ht' => h t' (List.mem_cons_of_mem t ht'))]
      rcases faceNormalP pos t with ⟨fx, fy, fz⟩
      simp [smulV, addV, zeroV]

/-- C2: `computeNormals` zeroes every vertex normal, adds the
unnormalized cross product of edges (b.position − a.position) and
(c.position − b.position) of every consecutive index triplet onto all
three corner vertices, and finally replaces each vertex normal with its
normalization (`nrm` abstracting `glm::normalize`): the resulting
normal at `i` is `nrm` of the accumulated sum, and a vertex referenced
by no triplet keeps a zero accumulator, ending as `nrm zeroV` — the
float-undefined normalization of the zero vector. -/
theorem C2_compute_normals (nrm : Vec3 → Vec3) (m : Model) (i : Nat)
    (hi : i < m.vertices.length)
    (hr : ∀ t ∈ triples m.indices, t.1 < m.vertices.length ∧
      t.2.1 < m.vertices.length ∧ t.2.2 < m.vertices.length) :
    (getVert (computeNormals nrm m).vertices i).normal =
      nrm (accumNormal (fun j => (getVert m.vertices j).position) (triples m.indices) i) ∧
    ((∀ t ∈ triples m.indices, i ≠ t.1 ∧ i ≠ t.2.1 ∧ i ≠ t.2.2) →
      (getVert (computeNormals nrm m).vertices i).normal = nrm zeroV) := by
  have main : (getVert (computeNormals nrm m).vertices i).normal =
      nrm (accumNormal (fun j => (getVert m.vertices j).position)
        (triples m.indices) i) := by
    unfold computeNormals
    dsimp only
    set vs0 := m.vertices.map (fun v => { v with normal := zeroV }) with hvs0
    have hlen0 : vs0.length = m.vertices.length := by
      rw [hvs0, List.length_map]
    have hr0 : ∀ t ∈ triples m.indices, t.1 < vs0.length ∧ t.2.1 < vs0.length ∧
        t.2.2 < vs0.length := by
      intro t ht
      rw [hlen0]
      exact hr t ht
    set vs1 := (triples m.indices).foldl accumNormalStep vs0 with hvs1
    have hi1 : i < vs1.length := by
      rw [hvs1, foldl_accumNormal_length, hlen0]
      exact hi
    rw [getVert_map _ _ _ hi1]
    dsimp only
    rw [hvs1, foldl_accumNormal_normal (triples m.indices) vs0 hr0 i]
    have hz : (getVert vs0 i).normal = zeroV := by
      rw [hvs0, getVert_map _ _ _ hi]
    have hp : (fun j => (getVert vs0 j).position) =
        (fun j => (getVert m.vertices j).position) :=
      funext (fun j => by rw [hvs0, getVert_map_reset_pos])
    rw [hz, hp, addV_zeroL]
  refine ⟨main, fun hnone => ?_⟩
  rw [main, accumNormal_zero _ _ _ hnone]

def mTri : Model :=
  ⟨[⟨⟨0, 0, 0⟩, zeroV, zeroV2, zeroV4⟩, ⟨⟨1, 0, 0⟩, zeroV, zeroV2, zeroV4⟩,
    ⟨⟨0, 1, 0⟩, zeroV, zeroV2, zeroV4⟩, ⟨⟨5, 5, 5⟩, zeroV, zeroV2, zeroV4⟩],
   [0, 1, 2], false, false, zeroV4, zeroV4, zeroV4, 0, 0, 0⟩

theorem C2_compute_normals_witness :
    (3 < mTri.vertices.length ∧
      ∀ t ∈ triples mTri.indices, t.1 < mTri.vertices.length ∧
        t.2.1 < mTri.vertices.length ∧ t.2.2 < mTri.vertices.length) ∧
    ((getVert (computeNormals (fun v => v) mTri).vertices 3).normal =
      (fun v => v) (accumNormal (fun j => (getVert mTri.vertices j).position)
        (triples mTri.indices) 3) ∧
    ((∀ t ∈ triples mTri.indices, 3 ≠ t.1 ∧ 3 ≠ t.2.1 ∧ 3 ≠ t.2.2) →
      (getVert (computeNormals (fun v => v) mTri).vertices 3).normal =
        (fun v => v) zeroV)) :=
  ⟨⟨by decide, by decide⟩,
    C2_compute_normals (fun v => v) mTri 3 (by decide) (by decide)⟩

/-! ### Tangent finalization (C4) -/

theorem getVert_zipWith (f : Vertex → Vec3 → Vertex) (l1 : List Vertex) (l2 : List Vec3)
    (i : Nat) (h1 : i < l1.length) (h2 : i < l2.length) :
    getVert (List.zipWith f l1 l2) i = f (getVert l1 i) (l2.getD i zeroV) := by
  have hl : i < (List.zipWith f l1 l2).length := by
    rw [List.length_zipWith]
    omega
  have hsome : (List.zipWith f l1 l2)[i]? =
      some (f (l1.getD i vdummy) (l2.getD i zeroV)) := by
    rw [List.getElem?_eq_getElem hl, List.getElem_zipWith,
      List.getD_eq_getElem l1 vdummy h1, List.getD_eq_getElem l2 zeroV h2]
  unfold getVert
  rw [getD_of_idx _ _ _ vdummy hsome]

theorem computeTangents_getVert (nrm : Vec3 → Vec3) (m : Model) (i : Nat)
    (hi : i < m.vertices.length) :
    getVert (computeTangents nrm m).vertices i =
      finalizeTangent nrm ((tangentAccum m).2.getD i zeroV)
        (getVert (tangentAccum m).1 i) := by
  unfold computeTangents
  dsimp only
  exact getVert_zipWith _ _ _ i
    (by rw [(tangentAccum_lengths m).1]; exact hi)
    (by rw [(tangentAccum_lengths m).2]; exact hi)

/-- C4: after `computeTangents`, each vertex's tangent `w` is exactly +1
or −1 and encodes the handedness sign of
`dot(cross(normal, accumulated tangent), accumulated bitangent)`
(the code maps a non-negative dot, including 0, to +1), and the
tangent's xyz is the accumulated tangent Gram-Schmidt-orthogonalized
against the vertex normal and then normalized (`nrm` abstracting
`glm::normalize`). -/
theorem C4_tangent_handedness (nrm : Vec3 → Vec3) (m : Model) (i : Nat)
    (hi : i < m.vertices.length) :
    ((getVert (computeTangents nrm m).vertices i).tangent.w = 1 ∨
      (getVert (computeTangents nrm m).vertices i).tangent.w = -1) ∧
    ((getVert (computeTangents nrm m).vertices i).tangent.w =
      if dotV (crossV (getVert (tangentAccum m).1 i).normal
            (xyz (getVert (tangentAccum m).1 i).tangent))
          ((tangentAccum m).2.getD i zeroV) < 0 then -1 else 1) ∧
    (xyz (getVert (computeTangents nrm m).vertices i).tangent =
      nrm (subV (xyz (getVert (tangentAccum m).1 i).tangent)
        (smulV (dotV (getVert (tangentAccum m).1 i).normal
            (xyz (getVert (tangentAccum m).1 i).tangent))
          (getVert (tangentAccum m).1 i).normal))) := by
  rw [computeTangents_getVert nrm m i hi]
  have hmid : (finalizeTangent nrm ((tangentAccum m).2.getD i zeroV)
      (getVert (tangentAccum m).1 i)).tangent.w =
      if dotV (crossV (getVert (tangentAccum m).1 i).normal
            (xyz (getVert (tangentAccum m).1 i).tangent))
          ((tangentAccum m).2.getD i zeroV) < 0 then (-1 : Q) else 1 := rfl
  refine ⟨?_, hmid, ?_⟩
  · rw [hmid]
    by_cases h : dotV (crossV (getVert (tangentAccum m).1 i).normal
        (xyz (getVert (tangentAccum m).1 i).tangent))
        ((tangentAccum m).2.getD i zeroV) < 0
    · right
      rw [if_pos h]
    · left
      rw [if_neg h]
  · unfold finalizeTangent
    dsimp only
    rcases hn : nrm (subV (xyz (getVert (tangentAccum m).1 i).tangent)
        (smulV (dotV (getVert (tangentAccum m).1 i).normal
            (xyz (getVert (tangentAccum m).1 i).tangent))
          (getVert (tangentAccum m).1 i).normal)) with ⟨tx, ty, tz⟩
    rfl

def mUV : Model :=
  ⟨[⟨⟨0, 0, 0⟩, ⟨0, 0, 1⟩, ⟨0, 0⟩, zeroV4⟩, ⟨⟨1, 0, 0⟩, ⟨0, 0, 1⟩, ⟨1, 0⟩, zeroV4⟩,
    ⟨⟨0, 1, 0⟩, ⟨0, 0, 1⟩, ⟨0, 1⟩, zeroV4⟩],
   [0, 1, 2], true, true, zeroV4, zeroV4, zeroV4, 0, 0, 0⟩

theorem C4_tangent_handedness_witness :
    (0 < mUV.vertices.length) ∧
    (((getVert (computeTangents (fun v => v) mUV).vertices 0).tangent.w = 1 ∨
      (getVert (computeTangents (fun v => v) mUV).vertices 0).tangent.w = -1) ∧
    ((getVert (computeTangents (fun v => v) mUV).vertices 0).tangent.w =
      if dotV (crossV (getVert (tangentAccum mUV).1 0).normal
            (xyz (getVert (tangentAccum mUV).1 0).tangent))
          ((tangentAccum mUV).2.getD 0 zeroV) < 0 then -1 else 1) ∧
    (xyz (getVert (computeTangents (fun v => v) mUV).vertices 0).tangent =
      (fun v => v) (subV (xyz (getVert (tangentAccum mUV).1 0).tangent)
        (smulV (dotV (getVert (tangentAccum mUV).1 0).normal
            (xyz (getVert (tangentAccum mUV).1 0).tangent))
          (getVert (tangentAccum mUV).1 0).normal)))) :=
  ⟨by decide, C4_tangent_handedness (fun v => v) mUV 0 (by decide)⟩

/-! ### Standardization bounds (C3) -/

theorem foldMax_init_le (vs : List Vertex) (a : Vec3) :
    a.x ≤ (vs.foldl maxStep a).x ∧ a.y ≤ (vs.foldl maxStep a).y ∧
    a.z ≤ (vs.foldl maxStep a).z := by
  induction vs generalizing a with
  | nil => exact ⟨le_refl _, le_refl _, le_refl _⟩
  | cons v vs ih =>
      rw [List.foldl_cons]
      obtain ⟨hx, hy, hz⟩ := ih (maxStep a v)
      exact ⟨le_trans (le_max_left _ _) hx, le_trans (le_max_left _ _) hy,
        le_trans (le_max_left _ _) hz⟩

theorem foldMax_elem_le (vs : List Vertex) (a : Vec3) :
    ∀ v ∈ vs, v.position.x ≤ (vs.foldl maxStep a).x ∧
      v.position.y ≤ (vs.foldl maxStep a).y ∧
      v.position.z ≤ (vs.foldl maxStep a).z := by
  induction vs generalizing a with
  | nil =>
      intro v hv
      exact absurd hv (List.not_mem_nil v)
  | cons w vs ih =>
      intro v hv
      rw [List.foldl_cons]
      rcases List.mem_cons.mp hv with rfl | hv'
      · obtain ⟨hx, hy, hz⟩ := foldMax_init_le vs (maxStep a v)
        exact ⟨le_trans (le_max_right _ _) hx, le_trans (le_max_right _ _) hy,
          le_trans (le_max_right _ _) hz⟩
      · exact ih (maxStep a w) v hv'

theorem foldMax_attained (vs : List Vertex) (a : Vec3) :
    ((vs.foldl maxStep a).x = a.x ∨ ∃ v ∈ vs, (vs.foldl maxStep a).x = v.position.x) ∧
    ((vs.foldl maxStep a).y = a.y ∨ ∃ v ∈ vs, (vs.foldl maxStep a).y = v.position.y) ∧
    ((vs.foldl maxStep a).z = a.z ∨ ∃ v ∈ vs, (vs.foldl maxStep a).z = v.position.z) := by
  induction vs generalizing a with
  | nil => exact ⟨Or.inl rfl, Or.inl rfl, Or.inl rfl⟩
  | cons w vs ih =>
      rw [List.foldl_cons]
      obtain ⟨ix, iy, iz⟩ := ih (maxStep a w)
      refine ⟨?_, ?_, ?_⟩
      · rcases ix with h | ⟨v, hv, hveq⟩
        · rcases max_choice a.x w.position.x with hm | hm
          · exact Or.inl (h.trans hm)
          · exact Or.inr ⟨w, List.mem_cons_self w vs, h.trans hm⟩
        · exact Or.inr ⟨v, List.mem_cons_of_mem w hv, hveq⟩
      · rcases iy with h | ⟨v, hv, hveq⟩
        · rcases max_choice a.y w.position.y with hm | hm
          · exact Or.inl (h.trans hm)
          · exact Or.inr ⟨w, List.mem_cons_self w vs, h.trans hm⟩
        · exact Or.inr ⟨v, List.mem_cons_of_mem w hv, hveq⟩
      · rcases iz with h | ⟨v, hv, hveq⟩
        · rcases max_choice a.z w.position.z with hm | hm
          · exact Or.inl (h.trans hm)
          · exact Or.inr ⟨w, List.mem_cons_self w vs, h.trans hm⟩
        · exact Or.inr ⟨v, List.mem_cons_of_mem w hv, hveq⟩

theorem foldMin_init_ge (vs : List Vertex) (a : Vec3) :
    (vs.foldl minStep a).x ≤ a.x ∧ (vs.foldl minStep a).y ≤ a.y ∧
    (vs.foldl minStep a).z ≤ a.z := by
  induction vs generalizing a with
  | nil => exact ⟨le_refl _, le_refl _, le_refl _⟩
  | cons v vs ih =>
      rw [List.foldl_cons]
      obtain ⟨hx, hy, hz⟩ := ih (minStep a v)
      exact ⟨le_trans hx (min_le_left _ _), le_trans hy (min_le_left _ _),
        le_trans hz (min_le_left _ _)⟩

theorem foldMin_elem_ge (vs : List Vertex) (a : Vec3) :
    ∀ v ∈ vs, (vs.foldl minStep a).x ≤ v.position.x ∧
      (vs.foldl minStep a).y ≤ v.position.y ∧
      (vs.foldl minStep a).z ≤ v.position.z := by
  induction vs generalizing a with
  | nil =>
      intro v hv
      exact absurd hv (List.not_mem_nil v)
  | cons w vs ih =>
      intro v hv
      rw [List.foldl_cons]
      rcases List.mem_cons.mp hv with rfl | hv'
      · obtain ⟨hx, hy, hz⟩ := foldMin_init_ge vs (minStep a v)
        exact ⟨le_trans hx (min_le_right _ _), le_trans hy (min_le_right _ _),
          le_trans hz (min_le_right _ _)⟩
      · exact ih (minStep a w) v hv'

theorem foldMin_attained (vs : List Vertex) (a : Vec3) :
    ((vs.foldl minStep a).x = a.x ∨ ∃ v ∈ vs, (vs.foldl minStep a).x = v.position.x) ∧
    ((vs.foldl minStep a).y = a.y ∨ ∃ v ∈ vs, (vs.foldl minStep a).y = v.position.y) ∧
    ((vs.foldl minStep a).z = a.z ∨ ∃ v ∈ vs, (vs.foldl minStep a).z = v.position.z) := by
  induction vs generalizing a with
  | nil => exact ⟨Or.inl rfl, Or.inl rfl, Or.inl rfl⟩
  | cons w vs ih =>
      rw [List.foldl_cons]
      obtain ⟨ix, iy, iz⟩ := ih (minStep a w)
      refine ⟨?_, ?_, ?_⟩
      · rcases ix with h | ⟨v, hv, hveq⟩
        · rcases min_choice a.x w.position.x with hm | hm
          · exact Or.inl (h.trans hm)
          · exact Or.inr ⟨w, List.mem_cons_self w vs, h.trans hm⟩
        · exact Or.inr ⟨v, List.mem_cons_of_mem w hv, hveq⟩
      · rcases iy with h | ⟨v, hv, hveq⟩
        · rcases min_choice a.y w.position.y with hm | hm
          · exact Or.inl (h.trans hm)
          · exact Or.inr ⟨w, List.mem_cons_self w vs, h.trans hm⟩
        · exact Or.inr ⟨v, List.mem_cons_of_mem w hv, hveq⟩
      · rcases iz with h | ⟨v, hv, hveq⟩
        · rcases min_choice a.z w.position.z with hm | hm
          · exact Or.inl (h.trans hm)
          · exact Or.inr ⟨w, List.mem_cons_self w vs, h.trans hm⟩
        · exact Or.inr ⟨v, List.mem_cons_of_mem w hv, hveq⟩

theorem modelMax_spec (vs : List Vertex) (hne : vs ≠ [])
    (hb : ∀ v ∈ vs, -fltMax ≤ v.position.x ∧ -fltMax ≤ v.position.y ∧
      -fltMax ≤ v.position.z) :
    (∀ v ∈ vs, v.position.x ≤ (modelMax vs).x ∧ v.position.y ≤ (modelMax vs).y ∧
      v.position.z ≤ (modelMax vs).z) ∧
    (∃ v ∈ vs, v.position.x = (modelMax vs).x) ∧
    (∃ v ∈ vs, v.position.y = (modelMax vs).y) ∧
    (∃ v ∈ vs, v.position.z = (modelMax vs).z) := by
  obtain ⟨v0, rest, rfl⟩ := List.exists_cons_of_ne_nil hne
  unfold modelMax
  refine ⟨foldMax_elem_le _ _, ?_, ?_, ?_⟩
  · rcases (foldMax_attained (v0 :: rest) ⟨-fltMax, -fltMax, -fltMax⟩).1 with h | ⟨v, hv, hveq⟩
    · have h0 := (foldMax_elem_le (v0 :: rest) ⟨-fltMax, -fltMax, -fltMax⟩ v0
        (List.mem_cons_self v0 rest)).1
      have hlb : ((v0 :: rest).foldl maxStep ⟨-fltMax, -fltMax, -fltMax⟩).x ≤
          v0.position.x := h ▸ (hb v0 (List.mem_cons_self v0 rest)).1
      exact ⟨v0, List.mem_cons_self v0 rest, le_antisymm h0 hlb⟩
    · exact ⟨v, hv, hveq.symm⟩
  · rcases (foldMax_attained (v0 :: rest) ⟨-fltMax, -fltMax, -fltMax⟩).2.1 with h | ⟨v, hv, hveq⟩
    · have h0 := (foldMax_elem_le (v0 :: rest) ⟨-fltMax, -fltMax, -fltMax⟩ v0
        (List.mem_cons_self v0 rest)).2.1
      have hlb : ((v0 :: rest).foldl maxStep ⟨-fltMax, -fltMax, -fltMax⟩).y ≤
          v0.position.y := h ▸ (hb v0 (List.mem_cons_self v0 rest)).2.1
      exact ⟨v0, List.mem_cons_self v0 rest, le_antisymm h0 hlb⟩
    · exact ⟨v, hv, hveq.symm⟩
  · rcases (foldMax_attained (v0 :: rest) ⟨-fltMax, -fltMax, -fltMax⟩).2.2 with h | ⟨v, hv, hveq⟩
    · have h0 := (foldMax_elem_le (v0 :: rest) ⟨-fltMax, -fltMax, -fltMax⟩ v0
        (List.mem_cons_self v0 rest)).2.2
      have hlb : ((v0 :: rest).foldl maxStep ⟨-fltMax, -fltMax, -fltMax⟩).z ≤
          v0.position.z := h ▸ (hb v0 (List.mem_cons_self v0 rest)).2.2
      exact ⟨v0, List.mem_cons_self v0 rest, le_antisymm h0 hlb⟩
    · exact ⟨v, hv, hveq.symm⟩

theorem modelMin_spec (vs : List Vertex) (hne : vs ≠ [])
    (hb : ∀ v ∈ vs, v.position.x ≤ fltMax ∧ v.position.y ≤ fltMax ∧
      v.position.z ≤ fltMax) :
    (∀ v ∈ vs, (modelMin vs).x ≤ v.position.x ∧ (modelMin vs).y ≤ v.position.y ∧
      (modelMin vs).z ≤ v.position.z) ∧
    (∃ v ∈ vs, v.position.x = (modelMin vs).x) ∧
    (∃ v ∈ vs, v.position.y = (modelMin vs).y) ∧
    (∃ v ∈ vs, v.position.z = (modelMin vs).z) := by
  obtain ⟨v0, rest, rfl⟩ := List.exists_cons_of_ne_nil hne
  unfold modelMin
  refine ⟨foldMin_elem_ge _ _, ?_, ?_, ?_⟩
  · rcases (foldMin_attained (v0 :: rest) ⟨fltMax, fltMax, fltMax⟩).1 with h | ⟨v, hv, hveq⟩
    · have h0 := (foldMin_elem_ge (v0 :: rest) ⟨fltMax, fltMax, fltMax⟩ v0
        (List.mem_cons_self v0 rest)).1
      have hub : v0.position.x ≤
          ((v0 :: rest).foldl minStep ⟨fltMax, fltMax, fltMax⟩).x :=
        h ▸ (hb v0 (List.mem_cons_self v0 rest)).1
      exact ⟨v0, List.mem_cons_self v0 rest, le_antisymm hub h0⟩
    · exact ⟨v, hv, hveq.symm⟩
  · rcases (foldMin_attained (v0 :: rest) ⟨fltMax, fltMax, fltMax⟩).2.1 with h | ⟨v, hv, hveq⟩
    · have h0 := (foldMin_elem_ge (v0 :: rest) ⟨fltMax, fltMax, fltMax⟩ v0
        (List.mem_cons_self v0 rest)).2.1
      have hub : v0.position.y ≤
          ((v0 :: rest).foldl minStep ⟨fltMax, fltMax, fltMax⟩).y :=
        h ▸ (hb v0 (List.mem_cons_self v0 rest)).2.1
      exact ⟨v0, List.mem_cons_self v0 rest, le_antisymm hub h0⟩
    · exact ⟨v, hv, hveq.symm⟩
  · rcases (foldMin_attained (v0 :: rest) ⟨fltMax, fltMax, fltMax⟩).2.2 with h | ⟨v, hv, hveq⟩
    · have h0 := (foldMin_elem_ge (v0 :: rest) ⟨fltMax, fltMax, fltMax⟩ v0
        (List.mem_cons_self v0 rest)).2.2
      have hub : v0.position.z ≤
          ((v0 :: rest).foldl minStep ⟨fltMax, fltMax, fltMax⟩).z :=
        h ▸ (hb v0 (List.mem_cons_self v0 rest)).2.2
      exact ⟨v0, List.mem_cons_self v0 rest, le_antisymm hub h0⟩
    · exact ⟨v, hv, hveq.symm⟩

/-- An exact axis-aligned bounding box of a vertex list: componentwise
bounds, each attained by some vertex. -/
def isAABB (vs : List Vertex) (lo hi : Vec3) : Prop :=
  (∀ v ∈ vs,
    lo.x ≤ v.position.x ∧ v.position.x ≤ hi.x ∧
    lo.y ≤ v.position.y ∧ v.position.y ≤ hi.y ∧
    lo.z ≤ v.position.z ∧ v.position.z ≤ hi.z) ∧
  (∃ v ∈ vs, v.position.x = lo.x) ∧ (∃ v ∈ vs, v.position.x = hi.x) ∧
  (∃ v ∈ vs, v.position.y = lo.y) ∧ (∃ v ∈ vs, v.position.y = hi.y) ∧
  (∃ v ∈ vs, v.position.z = lo.z) ∧ (∃ v ∈ vs, v.position.z = hi.z)

/-- The bounding-box diagonal `max − min` computed by `standardize`. -/
def boxDiag (m : Model) : Vec3 := subV (modelMax m.vertices) (modelMin m.vertices)

theorem C3_standardize_box (sq : Q → Q) (m : Model) (hne : m.vertices ≠ [])
    (hb : ∀ v ∈ m.vertices, |v.position.x| ≤ fltMax ∧ |v.position.y| ≤ fltMax ∧
      |v.position.z| ≤ fltMax)
    (hL2 : sq (dotV (boxDiag m) (boxDiag m)) ^ 2 = dotV (boxDiag m) (boxDiag m))
    (hLpos : 0 < sq (dotV (boxDiag m) (boxDiag m))) :
    ∃ lo hi : Vec3,
      isAABB (standardize sq m).vertices lo hi ∧
      addV lo hi = zeroV ∧
      dotV (subV hi lo) (subV hi lo) = 4 := by
  have hb1 : ∀ v ∈ m.vertices, -fltMax ≤ v.position.x ∧ -fltMax ≤ v.position.y ∧
      -fltMax ≤ v.position.z := fun v hv =>
    ⟨(abs_le.mp (hb v hv).1).1, (abs_le.mp (hb v hv).2.1).1, (abs_le.mp (hb v hv).2.2).1⟩
  have hb2 : ∀ v ∈ m.vertices, v.position.x ≤ fltMax ∧ v.position.y ≤ fltMax ∧
      v.position.z ≤ fltMax := fun v hv =>
    ⟨(abs_le.mp (hb v hv).1).2, (abs_le.mp (hb v hv).2.1).2, (abs_le.mp (hb v hv).2.2).2⟩
  obtain ⟨hmaxle, hmax_x, hmax_y, hmax_z⟩ := modelMax_spec m.vertices hne hb1
  obtain ⟨hminle, hmin_x, hmin_y, hmin_z⟩ := modelMin_spec m.vertices hne hb2
  set maxv := modelMax m.vertices with hmaxv
  set minv := modelMin m.vertices with hminv
  set L := sq (dotV (boxDiag m) (boxDiag m)) with hL
  set s := 2 / L with hs
  have hspos : 0 < s := div_pos (by norm_num) hLpos
  have hL0 : L ≠ 0 := ne_of_gt hLpos
  set c : Vec3 := smulV (1 / 2) (addV minv maxv) with hc
  have hvs : (standardize sq m).vertices =
      m.vertices.map (fun v => { v with position := smulV s (subV v.position c) }) := rfl
  refine ⟨smulV s (subV minv c), smulV s (subV maxv c), ⟨?_, ?_, ?_, ?_, ?_, ?_, ?_⟩,
    ?_, ?_⟩
  · intro w hw
    rw [hvs] at hw
    obtain ⟨v, hv, rfl⟩ := List.mem_map.mp hw
    refine ⟨?_, ?_, ?_, ?_, ?_, ?_⟩
    · exact mul_le_mul_of_nonneg_left (sub_le_sub_right ((hminle v hv).1) _) hspos.le
    · exact mul_le_mul_of_nonneg_left (sub_le_sub_right ((hmaxle v hv).1) _) hspos.le
    · exact mul_le_mul_of_nonneg_left (sub_le_sub_right ((hminle v hv).2.1) _) hspos.le
    · exact mul_le_mul_of_nonneg_left (sub_le_sub_right ((hmaxle v hv).2.1) _) hspos.le
    · exact mul_le_mul_of_nonneg_left (sub_le_sub_right ((hminle v hv).2.2) _) hspos.le
    · exact mul_le_mul_of_nonneg_left (sub_le_sub_right ((hmaxle v hv).2.2) _) hspos.le
  · obtain ⟨v, hv, hveq⟩ := hmin_x
    refine ⟨_, by rw [hvs]; exact List.mem_map_of_mem _ hv, ?_⟩
    show s * (v.position.x - c.x) = s * (minv.x - c.x)
    rw [hveq]
  · obtain ⟨v, hv, hveq⟩ := hmax_x
    refine ⟨_, by rw [hvs]; exact List.mem_map_of_mem _ hv, ?_⟩
    show s * (v.position.x - c.x) = s * (maxv.x - c.x)
    rw [hveq]
  · obtain ⟨v, hv, hveq⟩ := hmin_y
    refine ⟨_, by rw [hvs]; exact List.mem_map_of_mem _ hv, ?_⟩
    show s * (v.position.y - c.y) = s * (minv.y - c.y)
    rw [hveq]
  · obtain ⟨v, hv, hveq⟩ := hmax_y
    refine ⟨_, by rw [hvs]; exact List.mem_map_of_mem _ hv, ?_⟩
    show s * (v.position.y - c.y) = s * (maxv.y - c.y)
    rw [hveq]
  · obtain ⟨v, hv, hveq⟩ := hmin_z
    refine ⟨_, by rw [hvs]; exact List.mem_map_of_mem _ hv, ?_⟩
    show s * (v.position.z - c.z) = s * (minv.z - c.z)
    rw [hveq]
  · obtain ⟨v, hv, hveq⟩ := hmax_z
    refine ⟨_, by rw [hvs]; exact List.mem_map_of_mem _ hv, ?_⟩
    show s * (v.position.z - c.z) = s * (maxv.z - c.z)
    rw [hveq]
  · rw [hc]
    simp only [addV, smulV, subV, zeroV, Vec3.mk.injEq]
    refine ⟨by ring, by ring, by ring⟩
  · have expand : dotV (subV (smulV s (subV maxv c)) (smulV s (subV minv c)))
        (subV (smulV s (subV maxv c)) (smulV s (subV minv c))) =
        s ^ 2 * dotV (subV maxv minv) (subV maxv minv) := by
      simp only [dotV, subV, smulV]
      ring
    have hdd : dotV (subV maxv minv) (subV maxv minv) = L ^ 2 := hL2.symm
    rw [expand, hdd, hs]
    field_simp
    norm_num

def sqC3 : Q → Q := fun q => if q = 25 then 5 else 0

def mC3 : Model :=
  ⟨[⟨⟨0, 0, 0⟩, zeroV, zeroV2, zeroV4⟩, ⟨⟨3, 4, 0⟩, zeroV, zeroV2, zeroV4⟩],
   [], false, false, zeroV4, zeroV4, zeroV4, 0, 0, 0⟩

def vA : Vertex := ⟨⟨-3/5, -4/5, 0⟩, zeroV, zeroV2, zeroV4⟩

def vB : Vertex := ⟨⟨3/5, 4/5, 0⟩, zeroV, zeroV2, zeroV4⟩

/-- C3 counterexample: on the two-vertex model with positions (0,0,0)
and (3,4,0), `standardize` (with the square root of 25 being 5) yields
positions (∓3/5, ∓4/5, 0): the bounding box IS centered at the origin,
but its longest axis has half-length 4/5, not 1 — the code scales by
2/‖max−min‖ (diagonal), not by the longest extent. -/
theorem C3_standardize_counterexample :
    mC3.vertices ≠ [] ∧
    ¬ ∃ lo hi : Vec3, isAABB (standardize sqC3 mC3).vertices lo hi ∧
      max ((hi.x - lo.x) / 2) (max ((hi.y - lo.y) / 2) ((hi.z - lo.z) / 2)) = 1 := by
  refine ⟨by decide, ?_⟩
  rintro ⟨lo, hi, ⟨hbound, hlox, hhix, hloy, hhiy, hloz, hhiz⟩, hmax⟩
  have hvs : (standardize sqC3 mC3).vertices = [vA, vB] := by
    norm_num [standardize, mC3, modelMax, modelMin, maxStep, minStep, fltMax, sqC3,
      smulV, subV, addV, dotV, vA, vB, zeroV, zeroV2, zeroV4, max_def, min_def,
      Vertex.mk.injEq, Vec3.mk.injEq]
  rw [hvs] at hbound hlox hhix hloy hhiy hloz hhiz
  have hA := hbound vA (List.mem_cons_self _ _)
  have hB := hbound vB (List.mem_cons_of_mem _ (List.mem_cons_self _ _))
  have pair : ∀ (f : Vertex → Q) (q : Q), (∃ v ∈ [vA, vB], f v = q) →
      q = f vA ∨ q = f vB := by
    rintro f q ⟨v, hv, hveq⟩
    rcases List.mem_cons.mp hv with rfl | h2
    · exact Or.inl hveq.symm
    rcases List.mem_cons.mp h2 with rfl | h3
    · exact Or.inr hveq.symm
    exact absurd h3 (List.not_mem_nil v)
  have hhix2 : hi.x = 3 / 5 := by
    rcases pair (fun v => v.position.x) hi.x hhix with h | h
    · exfalso
      have h35 : vB.position.x ≤ hi.x := hB.2.1
      rw [h] at h35
      norm_num [vA, vB] at h35
    · rw [h]
      norm_num [vB]
  have hlox2 : lo.x = -3 / 5 := by
    rcases pair (fun v => v.position.x) lo.x hlox with h | h
    · rw [h]
      norm_num [vA]
    · exfalso
      have h35 : lo.x ≤ vA.position.x := hA.1
      rw [h] at h35
      norm_num [vA, vB] at h35
  have hhiy2 : hi.y = 4 / 5 := by
    rcases pair (fun v => v.position.y) hi.y hhiy with h | h
    · exfalso
      have h45 : vB.position.y ≤ hi.y := hB.2.2.2.1
      rw [h] at h45
      norm_num [vA, vB] at h45
    · rw [h]
      norm_num [vB]
  have hloy2 : lo.y = -4 / 5 := by
    rcases pair (fun v => v.position.y) lo.y hloy with h | h
    · rw [h]
      norm_num [vA]
    · exfalso
      have h45 : lo.y ≤ vA.position.y := hA.2.2.1
      rw [h] at h45
      norm_num [vA, vB] at h45
  have hhiz2 : hi.z = 0 := by
    rcases pair (fun v => v.position.z) hi.z hhiz with h | h
    · rw [h]
      norm_num [vA]
    · rw [h]
      norm_num [vB]
  have hloz2 : lo.z = 0 := by
    rcases pair (fun v => v.position.z) lo.z hloz with h | h
    · rw [h]
      norm_num [vA]
    · rw [h]
      norm_num [vB]
  rw [hhix2, hlox2, hhiy2, hloy2, hhiz2, hloz2] at hmax
  norm_num [max_def] at hmax

theorem hbC3 : ∀ v ∈ mC3.vertices, |v.position.x| ≤ fltMax ∧ |v.position.y| ≤ fltMax ∧
    |v.position.z| ≤ fltMax := by
  norm_num [mC3, fltMax, zeroV, zeroV2, zeroV4]

theorem hdotC3 : dotV (boxDiag mC3) (boxDiag mC3) = 25 := by
  norm_num [boxDiag, mC3, modelMax, modelMin, maxStep, minStep, fltMax,
    dotV, subV, zeroV, zeroV2, zeroV4, max_def, min_def]

theorem hsq2C3 : sqC3 (dotV (boxDiag mC3) (boxDiag mC3)) ^ 2 =
    dotV (boxDiag mC3) (boxDiag mC3) := by
  rw [hdotC3]
  norm_num [sqC3]

theorem hsqposC3 : 0 < sqC3 (dotV (boxDiag mC3) (boxDiag mC3)) := by
  rw [hdotC3]
  norm_num [sqC3]

theorem C3_standardize_box_witness :
    (mC3.vertices ≠ [] ∧
      (∀ v ∈ mC3.vertices, |v.position.x| ≤ fltMax ∧ |v.position.y| ≤ fltMax ∧
        |v.position.z| ≤ fltMax) ∧
      sqC3 (dotV (boxDiag mC3) (boxDiag mC3)) ^ 2 = dotV (boxDiag mC3) (boxDiag mC3) ∧
      0 < sqC3 (dotV (boxDiag mC3) (boxDiag mC3))) ∧
    ∃ lo hi : Vec3,
      isAABB (standardize sqC3 mC3).vertices lo hi ∧
      addV lo hi = zeroV ∧
      dotV (subV hi lo) (subV hi lo) = 4 :=
  ⟨⟨by decide, hbC3, hsq2C3, hsqposC3⟩,
    C3_standardize_box sqC3 mC3 (by decide) hbC3 hsq2C3 hsqposC3⟩
